import Mathlib

/-!
Verification of the source-analysis engine in `tools/libs/ts.js` (the later,
feature-complete copy of the two in the repository).  The JavaScript functions
are embedded shallowly: JS strings become Lean `String` (operated on through
their character lists so that everything reduces in the kernel), the ordered
JS objects used as maps become association lists, and the external
collaborators (Node `path`, the filesystem, and the TypeScript parser) are
abstracted as an explicit environment record, exactly at the interface
boundary the engine uses them through.
-/

namespace TsLib

/-! ## JS string primitives

`jsTake`/`jsDrop` model `String.prototype.substring(0, n)` / `substring(n)`
(clamping at the ends, as JS does), `jsTrim` models `String.prototype.trim`
on the whitespace actually occurring in the sources. -/

def jsTake (s : String) (n : Nat) : String :=
  String.mk (s.data.take n)

def jsDrop (s : String) (n : Nat) : String :=
  String.mk (s.data.drop n)

def jsLength (s : String) : Nat :=
  s.data.length

def isWsChar (c : Char) : Bool :=
  c == ' ' || c == '\n' || c == '\t' || c == '\r'

def trimChars (l : List Char) : List Char :=
  ((l.dropWhile isWsChar).reverse.dropWhile isWsChar).reverse

def jsTrim (s : String) : String :=
  String.mk (trimChars s.data)

/-! ## `changeSourceCode` — tools/libs/ts.js lines 189-210

A replacement is the JS triple `[start, end, text]`.  The JS function sorts
the caller's array in place with the comparator `(a, b) => b[0] - a[0]`
(descending start offsets; the engine's `Array.prototype.sort` is stable) and
then applies the replacements left to right over the sorted array, i.e.
right to left over the text.  `insertReplacement` places a later element
after all earlier elements with an equal or larger start, which is exactly a
stable descending sort when folded from the left. -/

abbrev Replacement := Nat × Nat × String

def insertReplacement (r : Replacement) : List Replacement → List Replacement
  | [] => [r]
  | x :: xs => if x.1 < r.1 then r :: x :: xs else x :: insertReplacement r xs

def sortReplacements (rs : List Replacement) : List Replacement :=
  rs.foldl (fun acc r => insertReplacement r acc) []

def applyReplacement (sourceCode : String) (r : Replacement) : String :=
  jsTake sourceCode r.1 ++ r.2.2 ++ jsDrop sourceCode r.2.1

/-- `changeSourceCode(sourceCode, replacements)`; the `none` argument models a
JS call with the `replacements` parameter absent or `undefined`. -/
def changeSourceCode (sourceCode : String) (replacements : Option (List Replacement)) : String :=
  match replacements with
  | none => sourceCode
  | some rs =>
    if rs.isEmpty then sourceCode
    else (sortReplacements rs).foldl applyReplacement sourceCode

/-- The contents of the caller's `replacements` array after
`changeSourceCode` returns: `Array.prototype.sort` mutated it in place
whenever the non-empty branch ran. -/
def changeSourceCodeArray (replacements : List Replacement) : List Replacement :=
  if replacements.isEmpty then replacements else sortReplacements replacements

theorem insertReplacement_perm (r : Replacement) (l : List Replacement) :
    (insertReplacement r l).Perm (r :: l) := by
  induction l with
  | nil => simp [insertReplacement]
  | cons x xs ih =>
    simp only [insertReplacement]
    split
    · exact List.Perm.refl _
    · exact (List.Perm.cons x ih).trans (List.Perm.swap r x xs)

theorem sortReplacements_perm (rs : List Replacement) :
    (sortReplacements rs).Perm rs := by
  suffices h : ∀ acc : List Replacement,
      (rs.foldl (fun acc r => insertReplacement r acc) acc).Perm (acc ++ rs) by
    simpa using h []
  induction rs with
  | nil => intro acc; simp
  | cons r rs ih =>
    intro acc
    simp only [List.foldl_cons]
    refine (ih (insertReplacement r acc)).trans ?_
    refine (List.Perm.append_right rs (insertReplacement_perm r acc)).trans ?_
    simpa using (@List.perm_middle _ r acc rs).symm

/-- Descending order on start offsets, the postcondition of the JS sort. -/
def descStart (a b : Replacement) : Prop := b.1 ≤ a.1

theorem insertReplacement_pairwise (r : Replacement) (l : List Replacement)
    (h : l.Pairwise descStart) : (insertReplacement r l).Pairwise descStart := by
  induction l with
  | nil => simp [insertReplacement, descStart]
  | cons x xs ih =>
    simp only [insertReplacement]
    rcases List.pairwise_cons.mp h with ⟨hx, hxs⟩
    split
    · rename_i hlt
      refine List.pairwise_cons.mpr ⟨?_, h⟩
      intro y hy
      rcases List.mem_cons.mp hy with rfl | hy
      · exact Nat.le_of_lt hlt
      · exact Nat.le_trans (hx y hy) (Nat.le_of_lt hlt)
    · rename_i hge
      refine List.pairwise_cons.mpr ⟨?_, ih hxs⟩
      intro y hy
      rcases List.mem_cons.mp ((insertReplacement_perm r xs).mem_iff.mp hy) with rfl | hy2
      · exact Nat.le_of_not_lt hge
      · exact hx y hy2

theorem sortReplacements_pairwise (rs : List Replacement) :
    (sortReplacements rs).Pairwise descStart := by
  suffices h : ∀ acc : List Replacement, acc.Pairwise descStart →
      (rs.foldl (fun acc r => insertReplacement r acc) acc).Pairwise descStart by
    exact h [] (by simp)
  induction rs with
  | nil => intro acc hacc; simpa using hacc
  | cons r rs ih =>
    intro acc hacc
    simp only [List.foldl_cons]
    exact ih _ (insertReplacement_pairwise r acc hacc)

/-! ## The Info model — tools/libs/ts.js lines 1909-2075

The classifier's record kinds, restricted to the fields that `resolveType`,
`extractInfo` and `autoExtendInfo` read.  `objectInfo` carries no `name`
(`getObjectInfo` never sets one).  `classInfo`/`interfaceInfo` carry the
`extends` field as the JS union `string | Array<string>` (absent = `none`)
and their body `properties` list.  `importInfo.imports` is the insertion-
ordered JS object mapping the original exported name to the local name, as
built by `getImportInfo` (`_imports[propertyName] = child.name.text`).
`inherited` starts out absent in the classifier, modelled as `false`. -/

inductive Info where
  | variableInfo (name : String)
  | propertyInfo (name : String) (inherited : Bool)
  | functionInfo (name : String) (inherited : Bool)
  | objectInfo
  | classInfo (name : String) (ext : Option (String ⊕ List String)) (properties : List Info)
  | interfaceInfo (name : String) (ext : Option (String ⊕ List String)) (properties : List Info)
  | importInfo (fromSpec : String) (imports : List (String × String))
  | exportInfo (name : Option String) (object : Option Info)
  | docletInfo

/-- The `name` property of an info record (`undefined` = `none`). -/
def Info.nameOf : Info → Option String
  | .variableInfo n => some n
  | .propertyInfo n _ => some n
  | .functionInfo n _ => some n
  | .objectInfo => none
  | .classInfo n _ _ => some n
  | .interfaceInfo n _ _ => some n
  | .importInfo _ _ => none
  | .exportInfo n _ => n
  | .docletInfo => none

/-- `SourceInfo` — path plus the file's flat, ordered info list. -/
structure SourceInfo where
  path : String
  code : List Info

/-- `ResolvedInfo` — tools/libs/ts.js lines 2046-2053. -/
structure ResolvedInfo where
  path : String
  resolvedInfo : Option Info
  resolvedPath : String
  type : String

/-- External collaborators of `resolveType`/`autoExtendInfo`, abstracted at
the interface boundary the engine uses them through:
`resolveFrom cur f` is `Path.resolve(Path.dirname(FSLib.path(cur)), FSLib.path(f))`,
`extname` is `Path.extname`, `existsSync` is `FS.existsSync`,
`sourceOf p` is `getSourceInfo(p, FS.readFileSync(p, 'utf8'))`, and
`kindEnumPos n` is the test `TS.SyntaxKind[n] > 0` used by `isNativeType`. -/
structure Env where
  resolveFrom : String → String → String
  extname : String → String
  existsSync : String → Bool
  sourceOf : String → SourceInfo
  kindEnumPos : String → Bool

/-! ## `resolveType` — tools/libs/ts.js lines 1586-1691

The JS recursion is modelled with an explicit fuel argument (outer `none`
means the fuel ran out, so any `some` result is a result the JS function
actually returns) and with the mutable `_stack` record threaded through as
the list of its keys: only key membership, insertion before the recursive
call, and deletion on success are ever performed on it. -/

/-- Path computation for one matching import binding, lines 1615-1633:
resolve against the importing file's directory, strip a literal `.js`
extension, and otherwise probe for `.d.ts` then `.ts`; `none` means the JS
loop hits `continue` (no usable target file). -/
def resolveImportPath (env : Env) (srcPath fromSpec : String) : Option String :=
  let p0 := env.resolveFrom srcPath fromSpec
  let p1 := if env.extname p0 == ".js" then jsTake p0 (jsLength p0 - 3) else p0
  if env.extname p1 == "" then
    if env.existsSync (p1 ++ ".d.ts") then some (p1 ++ ".d.ts")
    else if env.existsSync (p1 ++ ".ts") then some (p1 ++ ".ts")
    else none
  else some p1

/-- Outcome of scanning one import record's bindings: either the whole
`resolveType` call returns `r` (circular break or successful recursion), or
the scan falls through with the threaded stack. -/
inductive ImportScan where
  | ret (r : Option ResolvedInfo) (stack : List String)
  | cont (stack : List String)

/-- The `for (const item in imports)` loop, lines 1608-1658, parameterized
over the recursive call (`recur` is `resolveType` at the remaining fuel). -/
def resolveTypeImports (env : Env)
    (recur : SourceInfo → String → List String → Option (Option ResolvedInfo × List String))
    (srcPath type fromSpec : String) :
    List (String × String) → List String → Option ImportScan
  | [], stack => some (.cont stack)
  | (item, localName) :: rest, stack =>
    if item = type ∨ localName = type then
      match resolveImportPath env srcPath fromSpec with
      | none => resolveTypeImports env recur srcPath type fromSpec rest stack
      | some rp =>
        if rp ∈ stack then some (.ret none stack)
        else
          match recur (env.sourceOf rp) item (stack ++ [rp]) with
          | none => none
          | some (some r, st) =>
              some (.ret (some { path := srcPath, resolvedInfo := r.resolvedInfo,
                                 resolvedPath := r.path, type := type }) (st.erase rp))
          | some (none, st) => resolveTypeImports env recur srcPath type fromSpec rest st
    else resolveTypeImports env recur srcPath type fromSpec rest stack

/-- The `switch (info.kind)` of lines 1662-1686: an Export matches when it
wraps an object and its own or the object's name equals the queried type;
Class/Interface/Object/Variable match by `info.name === type` (an
ObjectInfo has no name, so it can never match).  Returns the info that
becomes `resolvedInfo.resolvedInfo`. -/
def switchMatch (info : Info) (type : String) : Option Info :=
  match info with
  | .exportInfo name obj =>
      match obj with
      | some o => if name = some type ∨ o.nameOf = some type then some o else none
      | none => none
  | .classInfo n _ _ => if n = type then some info else none
  | .interfaceInfo n _ _ => if n = type then some info else none
  | .variableInfo n => if n = type then some info else none
  | _ => none

/-- The `for (const info of sourceInfo.code)` loop, lines 1603-1688: each
record is first tried as an Import (lines 1605-1660) and then run through
the switch; the first hit returns immediately. -/
def resolveTypeCode (env : Env)
    (recur : SourceInfo → String → List String → Option (Option ResolvedInfo × List String))
    (srcPath type : String) :
    List Info → List String → Option (Option ResolvedInfo × List String)
  | [], stack => some (none, stack)
  | info :: rest, stack =>
    let afterImports : Option ImportScan :=
      match info with
      | .importInfo fromSpec imports =>
          resolveTypeImports env recur srcPath type fromSpec imports stack
      | _ => some (.cont stack)
    match afterImports with
    | none => none
    | some (.ret r st) => some (r, st)
    | some (.cont st) =>
      match switchMatch info type with
      | some found =>
          some (some { path := srcPath, resolvedInfo := some found,
                       resolvedPath := srcPath, type := type }, st)
      | none => resolveTypeCode env recur srcPath type rest st

/-- `resolveType(sourceInfo, type, _stack)`, fuel-indexed; the result pairs
the JS return value with the final state of the `_stack` keys. -/
def resolveType (env : Env) : Nat → SourceInfo → String → List String →
    Option (Option ResolvedInfo × List String)
  | 0, _, _, _ => none
  | fuel + 1, sourceInfo, type, stack =>
      resolveTypeCode env (resolveType env fuel) sourceInfo.path type sourceInfo.code stack

/-! ## Concrete collaborator instances used in witnesses -/

/-- Instance of the Node `path.extname` collaborator for the concrete
environments below: the suffix of the basename from its last `.`, except
that a leading `.` of the basename starts no extension. -/
def jsExtname (p : String) : String :=
  let base := (p.data.reverse.takeWhile (fun c => c != '/')).reverse
  match base with
  | [] => ""
  | _ :: rest =>
    if rest.contains '.' then
      String.mk ('.' :: (rest.reverse.takeWhile (fun c => c != '.')).reverse)
    else ""

/-- A record neither matched by the switch for `type` nor carrying an import
binding that matches `type` — the records `resolveType` scans past without
effect. -/
def noEarlyMatchB (i : Info) (type : String) : Bool :=
  (switchMatch i type).isNone &&
    (match i with
     | .importInfo _ m => m.all (fun kv => kv.1 != type && kv.2 != type)
     | _ => true)

theorem resolveTypeImports_no_match (env : Env) (recur) (srcPath type fromSpec : String)
    (entries : List (String × String)) (stack : List String)
    (h : ∀ kv ∈ entries, kv.1 ≠ type ∧ kv.2 ≠ type) :
    resolveTypeImports env recur srcPath type fromSpec entries stack =
      some (.cont stack) := by
  induction entries with
  | nil => rfl
  | cons kv rest ih =>
    obtain ⟨h1, h2⟩ := h kv (List.mem_cons_self kv rest)
    have hrest : ∀ kv ∈ rest, kv.1 ≠ type ∧ kv.2 ≠ type :=
      fun kv hkv => h kv (List.mem_cons_of_mem _ hkv)
    obtain ⟨k, v⟩ := kv
    simp only [resolveTypeImports]
    rw [if_neg (by simpa using ⟨h1, h2⟩)]
    exact ih hrest

theorem resolveTypeCode_skip (env : Env) (recur) (srcPath type : String)
    (i : Info) (rest : List Info) (stack : List String)
    (h : noEarlyMatchB i type = true) :
    resolveTypeCode env recur srcPath type (i :: rest) stack =
      resolveTypeCode env recur srcPath type rest stack := by
  have hsw : switchMatch i type = none := by
    have := (Bool.and_eq_true _ _).mp h |>.1
    exact Option.isNone_iff_eq_none.mp this
  have himp := (Bool.and_eq_true _ _).mp h |>.2
  cases i with
  | importInfo fromSpec m =>
    have hm : ∀ kv ∈ m, kv.1 ≠ type ∧ kv.2 ≠ type := by
      intro kv hkv
      have := List.all_eq_true.mp himp kv hkv
      have := (Bool.and_eq_true _ _).mp this
      exact ⟨by simpa using this.1, by simpa using this.2⟩
    simp only [resolveTypeCode,
      resolveTypeImports_no_match env recur srcPath type fromSpec m stack hm, hsw]
  | variableInfo n => simp only [resolveTypeCode, hsw]
  | propertyInfo n inh => simp only [resolveTypeCode, hsw]
  | functionInfo n inh => simp only [resolveTypeCode, hsw]
  | objectInfo => simp only [resolveTypeCode, hsw]
  | classInfo n e ps => simp only [resolveTypeCode, hsw]
  | interfaceInfo n e ps => simp only [resolveTypeCode, hsw]
  | exportInfo n o => simp only [resolveTypeCode, hsw]
  | docletInfo => simp only [resolveTypeCode, hsw]

/-- C2 (corrected): `resolveType` scans `sourceInfo.code` in a single pass
in list order, trying each record first as an Import and then through the
declaration switch; the first matching record wins.  Hence when every record
before `d` matches neither as an import binding nor as a declaration and `d`
matches the switch, the local declaration `d` is returned — even when an
Import binding the same name appears later in the list. -/
theorem c2_resolveType_single_pass (env : Env) (src : SourceInfo) (type : String)
    (pre rest : List Info) (d found : Info)
    (hcode : src.code = pre ++ d :: rest)
    (hpre : ∀ i ∈ pre, noEarlyMatchB i type = true)
    (hd : switchMatch d type = some found) :
    ∀ fuel, 1 ≤ fuel → resolveType env fuel src type [] =
      some (some ⟨src.path, some found, src.path, type⟩, []) := by
  intro fuel hfuel
  obtain ⟨f, rfl⟩ : ∃ f, fuel = f + 1 := ⟨fuel - 1, by omega⟩
  show resolveTypeCode env (resolveType env f) src.path type src.code [] = _
  rw [hcode]
  clear hcode
  revert hpre
  induction pre with
  | nil =>
    intro _
    cases d with
    | importInfo fromSpec m => simp [switchMatch] at hd
    | variableInfo n => simp only [List.nil_append, resolveTypeCode, hd]
    | propertyInfo n inh => simp [switchMatch] at hd
    | functionInfo n inh => simp [switchMatch] at hd
    | objectInfo => simp [switchMatch] at hd
    | classInfo n e ps => simp only [List.nil_append, resolveTypeCode, hd]
    | interfaceInfo n e ps => simp only [List.nil_append, resolveTypeCode, hd]
    | exportInfo n o => simp only [List.nil_append, resolveTypeCode, hd]
    | docletInfo => simp [switchMatch] at hd
  | cons i pre ih =>
    intro hpre
    have hi := hpre i (List.mem_cons_self i pre)
    have hpre2 : ∀ j ∈ pre, noEarlyMatchB j type = true :=
      fun j hj => hpre j (List.mem_cons_of_mem _ hj)
    rw [List.cons_append, resolveTypeCode_skip env _ src.path type i _ [] hi]
    exact ih hpre2

/-- Concrete two-file environment for C2: `/b.ts` declares `X`; the module
specifier `./b` of `/a.ts` resolves to `/b` and the extension probe finds
`/b.ts`. -/
def c2Code (p : String) : List Info :=
  if p = "/b.ts" then [.variableInfo "X"] else []

def c2Env : Env where
  resolveFrom := fun _ f => if f == "./b" then "/b" else "/none"
  extname := jsExtname
  existsSync := fun p => p == "/b.ts"
  sourceOf := fun p => ⟨p, c2Code p⟩
  kindEnumPos := fun _ => false

/-- `/a.ts` with a local declaration of `X` before an import binding `X`. -/
def c2SrcShadow : SourceInfo :=
  ⟨"/a.ts", [.variableInfo "X", .importInfo "./b" [("X", "X")]]⟩

/-- Counterexample to C2 as stated: `/a.ts` contains both an Import binding
`X` (which, on its own, resolves to the declaration in `/b.ts`, second
conjunct) and a local declaration of `X` earlier in the code list; the
the import is not checked first — `resolveType` returns the local record,
resolved in `/a.ts` itself, not in the import's target `/b.ts`. -/
theorem c2_counterexample :
    resolveType c2Env 5 c2SrcShadow "X" [] =
      some (some ⟨"/a.ts", some (.variableInfo "X"), "/a.ts", "X"⟩, []) ∧
    resolveType c2Env 5 ⟨"/a.ts", [.importInfo "./b" [("X", "X")]]⟩ "X" [] =
      some (some ⟨"/a.ts", some (.variableInfo "X"), "/b.ts", "X"⟩, []) ∧
    ("/a.ts" : String) ≠ "/b.ts" :=
  ⟨rfl, rfl, by decide⟩

/-- `/a.ts` with a non-matching import, then the local `X`, then an import
binding `X`. -/
def c2SrcWitness : SourceInfo :=
  ⟨"/a.ts", [.importInfo "./b" [("Y", "Y")], .variableInfo "X",
             .importInfo "./b" [("X", "X")]]⟩

/-- Witness for the corrected C2 at a file whose code list holds a
non-matching import, then the local declaration, then an import binding the
queried name. -/
theorem c2_resolveType_single_pass_witness :
    c2SrcWitness.code = [.importInfo "./b" [("Y", "Y")]] ++ (.variableInfo "X") ::
      [.importInfo "./b" [("X", "X")]] ∧
    resolveType c2Env 5 c2SrcWitness "X" [] =
      some (some ⟨c2SrcWitness.path, some (.variableInfo "X"), c2SrcWitness.path, "X"⟩, []) :=
  ⟨rfl, c2_resolveType_single_pass c2Env c2SrcWitness "X"
    [.importInfo "./b" [("Y", "Y")]] [.importInfo "./b" [("X", "X")]]
    (.variableInfo "X") (.variableInfo "X") rfl (by decide) rfl 5 (by decide)⟩

/-! ## C1: cycle protection of `resolveType`

The lemmas follow the call tree of a two-file circular import graph: the
innermost re-entry of file A hits the `_stack` check and fails closed, the
middle call on B therefore falls through its whole code list, and the outer
call on A does the same, returning `undefined` with the fuel never
exhausted. -/

/-- Import records of a file in a two-file graph: every import of the file
either resolves to `target` or to no usable file at all, and no binding
renames (`import { X } from ...` shape, so the recursion re-queries the same
name). -/
def importOk (env : Env) (srcPath target : String) : Info → Prop
  | .importInfo f m =>
      (resolveImportPath env srcPath f = some target ∨
       resolveImportPath env srcPath f = none) ∧ ∀ kv ∈ m, kv.1 = kv.2
  | _ => True

theorem c1_imports_inner (env : Env)
    (recur : SourceInfo → String → List String → Option (Option ResolvedInfo × List String))
    (pA pB X fromSpec : String) (entries : List (String × String)) (st : List String)
    (hkv : ∀ kv ∈ entries, kv.1 = kv.2)
    (htarget : resolveImportPath env pA fromSpec = some pB ∨
               resolveImportPath env pA fromSpec = none)
    (hmem : pB ∈ st) :
    resolveTypeImports env recur pA X fromSpec entries st = some (.cont st) ∨
    resolveTypeImports env recur pA X fromSpec entries st = some (.ret none st) := by
  induction entries with
  | nil => exact Or.inl rfl
  | cons kv rest ih =>
    obtain ⟨k, v⟩ := kv
    have ihrest := ih (fun kv h => hkv kv (List.mem_cons_of_mem _ h))
    simp only [resolveTypeImports]
    by_cases hmatch : k = X ∨ v = X
    · rw [if_pos hmatch]
      rcases htarget with ht | ht
      · simp only [ht]
        rw [if_pos hmem]
        exact Or.inr rfl
      · simp only [ht]
        exact ihrest
    · rw [if_neg hmatch]
      exact ihrest

theorem c1_code_inner (env : Env)
    (recur : SourceInfo → String → List String → Option (Option ResolvedInfo × List String))
    (pA pB X : String) (code : List Info) (st : List String)
    (himp : ∀ i ∈ code, importOk env pA pB i)
    (hdecl : ∀ i ∈ code, switchMatch i X = none)
    (hmem : pB ∈ st) :
    resolveTypeCode env recur pA X code st = some (none, st) := by
  induction code with
  | nil => rfl
  | cons i rest ih =>
    have hsw := hdecl i (List.mem_cons_self i rest)
    have ihrest := ih (fun j h => himp j (List.mem_cons_of_mem _ h))
      (fun j h => hdecl j (List.mem_cons_of_mem _ h))
    cases i with
    | importInfo fromSpec m =>
      obtain ⟨htarget, hkv⟩ := himp _ (List.mem_cons_self _ rest)
      rcases c1_imports_inner env recur pA pB X fromSpec m st hkv htarget hmem with h | h
      · simp only [resolveTypeCode, h, hsw]
        exact ihrest
      · simp only [resolveTypeCode, h]
    | variableInfo n => simp only [resolveTypeCode, hsw]; exact ihrest
    | propertyInfo n inh => simp only [resolveTypeCode, hsw]; exact ihrest
    | functionInfo n inh => simp only [resolveTypeCode, hsw]; exact ihrest
    | objectInfo => simp only [resolveTypeCode, hsw]; exact ihrest
    | classInfo n e ps => simp only [resolveTypeCode, hsw]; exact ihrest
    | interfaceInfo n e ps => simp only [resolveTypeCode, hsw]; exact ihrest
    | exportInfo n o => simp only [resolveTypeCode, hsw]; exact ihrest
    | docletInfo => simp only [resolveTypeCode, hsw]; exact ihrest

theorem c1_imports_B (env : Env) (f : Nat) (pA pB X fromSpec : String) (srcA : SourceInfo)
    (hA : env.sourceOf pA = srcA) (hApath : srcA.path = pA)
    (himpA : ∀ i ∈ srcA.code, importOk env pA pB i)
    (hdeclA : ∀ i ∈ srcA.code, switchMatch i X = none)
    (hf : 1 ≤ f)
    (entries : List (String × String))
    (hkv : ∀ kv ∈ entries, kv.1 = kv.2)
    (htarget : resolveImportPath env pB fromSpec = some pA ∨
               resolveImportPath env pB fromSpec = none)
    (st : List String) (hmem : pB ∈ st) :
    ∃ st',
      (resolveTypeImports env (resolveType env f) pB X fromSpec entries st =
         some (.cont st') ∨
       resolveTypeImports env (resolveType env f) pB X fromSpec entries st =
         some (.ret none st')) ∧ st ⊆ st' ∧ pB ∈ st' := by
  induction entries generalizing st with
  | nil => exact ⟨st, Or.inl rfl, List.Subset.refl st, hmem⟩
  | cons kv rest ih =>
    obtain ⟨k, v⟩ := kv
    have ihrest := fun st h =>
      ih (fun kv h => hkv kv (List.mem_cons_of_mem _ h)) st h
    simp only [resolveTypeImports]
    by_cases hmatch : k = X ∨ v = X
    · rw [if_pos hmatch]
      have hkX : k = X := by
        have hk : k = v := hkv (k, v) (List.mem_cons_self _ rest)
        rcases hmatch with h | h
        · exact h
        · exact hk.trans h
      rcases htarget with ht | ht
      · simp only [ht]
        by_cases hin : pA ∈ st
        · rw [if_pos hin]
          exact ⟨st, Or.inr rfl, List.Subset.refl st, hmem⟩
        · rw [if_neg hin]
          obtain ⟨f0, rfl⟩ : ∃ f0, f = f0 + 1 := ⟨f - 1, by omega⟩
          have hrec : resolveType env (f0 + 1) (env.sourceOf pA) k (st ++ [pA]) =
              some (none, st ++ [pA]) := by
            show resolveTypeCode env (resolveType env f0) (env.sourceOf pA).path k
              (env.sourceOf pA).code (st ++ [pA]) = some (none, st ++ [pA])
            rw [hA, hApath, hkX]
            exact c1_code_inner env (resolveType env f0) pA pB X srcA.code (st ++ [pA])
              himpA hdeclA (List.mem_append_left [pA] hmem)
          simp only [hrec]
          obtain ⟨st', hres, hsub, hm⟩ := ihrest (st ++ [pA])
            (List.mem_append_left [pA] hmem)
          exact ⟨st', hres, (List.subset_append_left st [pA]).trans hsub, hm⟩
      · simp only [ht]
        exact ihrest st hmem
    · rw [if_neg hmatch]
      exact ihrest st hmem

theorem c1_code_B (env : Env) (f : Nat) (pA pB X : String) (srcA : SourceInfo)
    (hA : env.sourceOf pA = srcA) (hApath : srcA.path = pA)
    (himpA : ∀ i ∈ srcA.code, importOk env pA pB i)
    (hdeclA : ∀ i ∈ srcA.code, switchMatch i X = none)
    (hf : 1 ≤ f)
    (code : List Info)
    (himpB : ∀ i ∈ code, importOk env pB pA i)
    (hdeclB : ∀ i ∈ code, switchMatch i X = none)
    (st : List String) (hmem : pB ∈ st) :
    ∃ st', resolveTypeCode env (resolveType env f) pB X code st = some (none, st') ∧
      st ⊆ st' ∧ pB ∈ st' := by
  induction code generalizing st with
  | nil => exact ⟨st, rfl, List.Subset.refl st, hmem⟩
  | cons i rest ih =>
    have hsw := hdeclB i (List.mem_cons_self i rest)
    have ihrest := fun st h =>
      ih (fun j hj => himpB j (List.mem_cons_of_mem _ hj))
        (fun j hj => hdeclB j (List.mem_cons_of_mem _ hj)) st h
    cases i with
    | importInfo fromSpec m =>
      obtain ⟨htarget, hkv⟩ := himpB _ (List.mem_cons_self _ rest)
      obtain ⟨st', hres, hsub, hm⟩ := c1_imports_B env f pA pB X fromSpec srcA hA hApath
        himpA hdeclA hf m hkv htarget st hmem
      rcases hres with h | h
      · simp only [resolveTypeCode, h, hsw]
        obtain ⟨st'', hres2, hsub2, hm2⟩ := ihrest st' hm
        exact ⟨st'', hres2, hsub.trans hsub2, hm2⟩
      · exact ⟨st', by simp only [resolveTypeCode, h], hsub, hm⟩
    | variableInfo n =>
      simp only [resolveTypeCode, hsw]; exact ihrest st hmem
    | propertyInfo n inh =>
      simp only [resolveTypeCode, hsw]; exact ihrest st hmem
    | functionInfo n inh =>
      simp only [resolveTypeCode, hsw]; exact ihrest st hmem
    | objectInfo =>
      simp only [resolveTypeCode, hsw]; exact ihrest st hmem
    | classInfo n e ps =>
      simp only [resolveTypeCode, hsw]; exact ihrest st hmem
    | interfaceInfo n e ps =>
      simp only [resolveTypeCode, hsw]; exact ihrest st hmem
    | exportInfo n o =>
      simp only [resolveTypeCode, hsw]; exact ihrest st hmem
    | docletInfo =>
      simp only [resolveTypeCode, hsw]; exact ihrest st hmem

theorem c1_imports_top (env : Env) (f : Nat) (pA pB X fromSpec : String)
    (srcA srcB : SourceInfo)
    (hA : env.sourceOf pA = srcA) (hApath : srcA.path = pA)
    (hB : env.sourceOf pB = srcB) (hBpath : srcB.path = pB)
    (himpA : ∀ i ∈ srcA.code, importOk env pA pB i)
    (hdeclA : ∀ i ∈ srcA.code, switchMatch i X = none)
    (himpB : ∀ i ∈ srcB.code, importOk env pB pA i)
    (hdeclB : ∀ i ∈ srcB.code, switchMatch i X = none)
    (hf : 2 ≤ f)
    (entries : List (String × String))
    (hkv : ∀ kv ∈ entries, kv.1 = kv.2)
    (htarget : resolveImportPath env pA fromSpec = some pB ∨
               resolveImportPath env pA fromSpec = none)
    (st : List String) :
    ∃ st',
      (resolveTypeImports env (resolveType env f) pA X fromSpec entries st =
         some (.cont st') ∨
       resolveTypeImports env (resolveType env f) pA X fromSpec entries st =
         some (.ret none st')) ∧ st ⊆ st' := by
  induction entries generalizing st with
  | nil => exact ⟨st, Or.inl rfl, List.Subset.refl st⟩
  | cons kv rest ih =>
    obtain ⟨k, v⟩ := kv
    have ihrest := fun st => ih (fun kv h => hkv kv (List.mem_cons_of_mem _ h)) st
    simp only [resolveTypeImports]
    by_cases hmatch : k = X ∨ v = X
    · rw [if_pos hmatch]
      have hkX : k = X := by
        have hk : k = v := hkv (k, v) (List.mem_cons_self _ rest)
        rcases hmatch with h | h
        · exact h
        · exact hk.trans h
      rcases htarget with ht | ht
      · simp only [ht]
        by_cases hin : pB ∈ st
        · rw [if_pos hin]
          exact ⟨st, Or.inr rfl, List.Subset.refl st⟩
        · rw [if_neg hin]
          obtain ⟨f0, rfl⟩ : ∃ f0, f = f0 + 1 := ⟨f - 1, by omega⟩
          have hmem2 : pB ∈ st ++ [pB] :=
            List.mem_append_right st (List.mem_singleton.mpr rfl)
          obtain ⟨st2, hrec, hsub2, hm2⟩ := c1_code_B env f0 pA pB X srcA hA hApath
            himpA hdeclA (by omega) srcB.code himpB hdeclB (st ++ [pB]) hmem2
          have hrec2 : resolveType env (f0 + 1) (env.sourceOf pB) k (st ++ [pB]) =
              some (none, st2) := by
            show resolveTypeCode env (resolveType env f0) (env.sourceOf pB).path k
              (env.sourceOf pB).code (st ++ [pB]) = some (none, st2)
            rw [hB, hBpath, hkX]
            exact hrec
          simp only [hrec2]
          obtain ⟨st', hres, hsub⟩ := ihrest st2
          exact ⟨st', hres, ((List.subset_append_left st [pB]).trans hsub2).trans hsub⟩
      · simp only [ht]
        exact ihrest st
    · rw [if_neg hmatch]
      exact ihrest st

theorem c1_code_top (env : Env) (f : Nat) (pA pB X : String)
    (srcA srcB : SourceInfo)
    (hA : env.sourceOf pA = srcA) (hApath : srcA.path = pA)
    (hB : env.sourceOf pB = srcB) (hBpath : srcB.path = pB)
    (himpA : ∀ i ∈ srcA.code, importOk env pA pB i)
    (hdeclA : ∀ i ∈ srcA.code, switchMatch i X = none)
    (himpB : ∀ i ∈ srcB.code, importOk env pB pA i)
    (hdeclB : ∀ i ∈ srcB.code, switchMatch i X = none)
    (hf : 2 ≤ f)
    (code : List Info)
    (himp : ∀ i ∈ code, importOk env pA pB i)
    (hdecl : ∀ i ∈ code, switchMatch i X = none)
    (st : List String) :
    ∃ st', resolveTypeCode env (resolveType env f) pA X code st = some (none, st') ∧
      st ⊆ st' := by
  induction code generalizing st with
  | nil => exact ⟨st, rfl, List.Subset.refl st⟩
  | cons i rest ih =>
    have hsw := hdecl i (List.mem_cons_self i rest)
    have ihrest := fun st =>
      ih (fun j hj => himp j (List.mem_cons_of_mem _ hj))
        (fun j hj => hdecl j (List.mem_cons_of_mem _ hj)) st
    cases i with
    | importInfo fromSpec m =>
      obtain ⟨htarget, hkv⟩ := himp _ (List.mem_cons_self _ rest)
      obtain ⟨st', hres, hsub⟩ := c1_imports_top env f pA pB X fromSpec srcA srcB
        hA hApath hB hBpath himpA hdeclA himpB hdeclB hf m hkv htarget st
      rcases hres with h | h
      · simp only [resolveTypeCode, h, hsw]
        obtain ⟨st'', hres2, hsub2⟩ := ihrest st'
        exact ⟨st'', hres2, hsub.trans hsub2⟩
      · exact ⟨st', by simp only [resolveTypeCode, h], hsub⟩
    | variableInfo n =>
      simp only [resolveTypeCode, hsw]; exact ihrest st
    | propertyInfo n inh =>
      simp only [resolveTypeCode, hsw]; exact ihrest st
    | functionInfo n inh =>
      simp only [resolveTypeCode, hsw]; exact ihrest st
    | objectInfo =>
      simp only [resolveTypeCode, hsw]; exact ihrest st
    | classInfo n e ps =>
      simp only [resolveTypeCode, hsw]; exact ihrest st
    | interfaceInfo n e ps =>
      simp only [resolveTypeCode, hsw]; exact ihrest st
    | exportInfo n o =>
      simp only [resolveTypeCode, hsw]; exact ihrest st
    | docletInfo =>
      simp only [resolveTypeCode, hsw]; exact ihrest st

/-- C1: in every two-file circular import graph — file A's imports lead to
file B (when they lead anywhere), B's lead back to A, both with plain
un-renamed bindings, each file actually importing the queried name `X` from
the other, and `X` declared in neither file — `resolveType` terminates with
any fuel of at least 3 (no fuel exhaustion, so the JS recursion completes)
and returns `undefined`: a path already on the active `_stack` is never
re-entered, and the circular branch is a not-found outcome, not an error or
non-termination. -/
theorem c1_circular_import_terminates (env : Env) (pA pB X : String)
    (srcA srcB : SourceInfo)
    (hA : env.sourceOf pA = srcA) (hApath : srcA.path = pA)
    (hB : env.sourceOf pB = srcB) (hBpath : srcB.path = pB)
    (himpA : ∀ i ∈ srcA.code, importOk env pA pB i)
    (hdeclA : ∀ i ∈ srcA.code, switchMatch i X = none)
    (himpB : ∀ i ∈ srcB.code, importOk env pB pA i)
    (hdeclB : ∀ i ∈ srcB.code, switchMatch i X = none)
    (_hcycA : ∃ i ∈ srcA.code, ∃ f m, i = .importInfo f m ∧
      resolveImportPath env pA f = some pB ∧ (X, X) ∈ m)
    (_hcycB : ∃ i ∈ srcB.code, ∃ f m, i = .importInfo f m ∧
      resolveImportPath env pB f = some pA ∧ (X, X) ∈ m) :
    ∀ fuel, 3 ≤ fuel → ∃ st, resolveType env fuel srcA X [] = some (none, st) := by
  intro fuel hfuel
  obtain ⟨f, rfl⟩ : ∃ f, fuel = f + 1 := ⟨fuel - 1, by omega⟩
  obtain ⟨st, hres, _⟩ := c1_code_top env f pA pB X srcA srcB hA hApath hB hBpath
    himpA hdeclA himpB hdeclB (by omega) srcA.code himpA hdeclA []
  refine ⟨st, ?_⟩
  show resolveTypeCode env (resolveType env f) srcA.path X srcA.code [] = some (none, st)
  rw [hApath]
  exact hres

/-- Concrete circular import graph for the C1 witness: `/a.ts` imports `X`
from `./b`, `/b.ts` imports `X` from `./a`, and neither file declares
anything. -/
def c1Code (p : String) : List Info :=
  if p = "/a.ts" then [.importInfo "./b" [("X", "X")]]
  else if p = "/b.ts" then [.importInfo "./a" [("X", "X")]]
  else []

def c1Env : Env where
  resolveFrom := fun _ f => if f == "./b" then "/b" else if f == "./a" then "/a" else "/none"
  extname := jsExtname
  existsSync := fun p => p == "/a.ts" || p == "/b.ts"
  sourceOf := fun p => ⟨p, c1Code p⟩
  kindEnumPos := fun _ => false

def c1SrcA : SourceInfo := ⟨"/a.ts", c1Code "/a.ts"⟩

def c1SrcB : SourceInfo := ⟨"/b.ts", c1Code "/b.ts"⟩

/-- Witness for C1 on the concrete two-file cycle, at the minimal
sufficient fuel. -/
theorem c1_circular_import_terminates_witness :
    ∃ st, resolveType c1Env 3 c1SrcA "X" [] = some (none, st) :=
  c1_circular_import_terminates c1Env "/a.ts" "/b.ts" "X" c1SrcA c1SrcB
    rfl rfl rfl rfl
    (by
      intro i hi
      simp [c1SrcA, c1Code] at hi
      subst hi
      exact ⟨Or.inl rfl, by decide⟩)
    (by
      intro i hi
      simp [c1SrcA, c1Code] at hi
      subst hi
      rfl)
    (by
      intro i hi
      simp [c1SrcB, c1Code] at hi
      subst hi
      exact ⟨Or.inl rfl, by decide⟩)
    (by
      intro i hi
      simp [c1SrcB, c1Code] at hi
      subst hi
      rfl)
    ⟨.importInfo "./b" [("X", "X")], by simp [c1SrcA, c1Code],
      "./b", [("X", "X")], rfl, rfl, by decide⟩
    ⟨.importInfo "./a" [("X", "X")], by simp [c1SrcB, c1Code],
      "./a", [("X", "X")], rfl, rfl, by decide⟩
    3 (by omega)

/-! ## C3: the shape of a successful `ResolvedInfo`

The JS function overwrites `resolvedInfo.resolvedPath` with
`resolvedImport.path` (line 1652) — the path of the file one import hop
away — not with `resolvedImport.resolvedPath` where the declaration was
ultimately found.  The lemmas below characterize every success. -/

theorem resolveTypeImports_ret_path (env : Env)
    (recur : SourceInfo → String → List String → Option (Option ResolvedInfo × List String))
    (srcPath type fromSpec : String) (entries : List (String × String))
    (st st2 : List String) (r : ResolvedInfo)
    (h : resolveTypeImports env recur srcPath type fromSpec entries st =
      some (.ret (some r) st2)) :
    r.path = srcPath ∧ r.type = type := by
  induction entries generalizing st with
  | nil => simp [resolveTypeImports] at h
  | cons kv rest ih =>
    obtain ⟨k, v⟩ := kv
    simp only [resolveTypeImports] at h
    split at h
    · split at h
      · exact ih _ h
      · split at h
        · simp at h
        · split at h
          · simp at h
          · rename_i r2 st3 heq
            simp only [Option.some.injEq, ImportScan.ret.injEq] at h
            obtain ⟨h1, h2⟩ := h
            subst h1
            exact ⟨rfl, rfl⟩
          · exact ih _ h
    · exact ih _ h

theorem resolveTypeCode_some_path (env : Env)
    (recur : SourceInfo → String → List String → Option (Option ResolvedInfo × List String))
    (srcPath type : String) (code : List Info) (st st' : List String) (r : ResolvedInfo)
    (h : resolveTypeCode env recur srcPath type code st = some (some r, st')) :
    r.path = srcPath ∧ r.type = type := by
  induction code generalizing st with
  | nil => simp [resolveTypeCode] at h
  | cons i rest ih =>
    have hsw : ∀ st0 : List String,
        (match switchMatch i type with
          | some found =>
              some (some ({ path := srcPath, resolvedInfo := some found,
                            resolvedPath := srcPath, type := type } : ResolvedInfo), st0)
          | none => resolveTypeCode env recur srcPath type rest st0) =
          some (some r, st') → r.path = srcPath ∧ r.type = type := by
      intro st0 h0
      split at h0
      · simp only [Option.some.injEq, Prod.mk.injEq] at h0
        obtain ⟨h1, h2⟩ := h0
        subst h1
        exact ⟨rfl, rfl⟩
      · exact ih st0 h0
    cases i with
    | importInfo fromSpec m =>
      simp only [resolveTypeCode] at h
      split at h
      · simp at h
      · rename_i r0 st0 heq
        simp only [Option.some.injEq, Prod.mk.injEq] at h
        obtain ⟨h1, h2⟩ := h
        subst h1
        exact resolveTypeImports_ret_path env recur srcPath type fromSpec m st st0 r heq
      · rename_i st0 heq
        exact hsw st0 h
    | variableInfo n => simp only [resolveTypeCode] at h; exact hsw st h
    | propertyInfo n inh => simp only [resolveTypeCode] at h; exact hsw st h
    | functionInfo n inh => simp only [resolveTypeCode] at h; exact hsw st h
    | objectInfo => simp only [resolveTypeCode] at h; exact hsw st h
    | classInfo n e ps => simp only [resolveTypeCode] at h; exact hsw st h
    | interfaceInfo n e ps => simp only [resolveTypeCode] at h; exact hsw st h
    | exportInfo n o => simp only [resolveTypeCode] at h; exact hsw st h
    | docletInfo => simp only [resolveTypeCode] at h; exact hsw st h

/-- On every success of `resolveType`, `path` is the queried file and `type`
is the queried name. -/
theorem resolveType_some_path (env : Env) (fuel : Nat) (src : SourceInfo)
    (type : String) (st st' : List String) (r : ResolvedInfo)
    (h : resolveType env fuel src type st = some (some r, st')) :
    r.path = src.path ∧ r.type = type := by
  cases fuel with
  | zero => simp [resolveType] at h
  | succ f =>
    exact resolveTypeCode_some_path env (resolveType env f) src.path type
      src.code st st' r h

theorem resolveTypeImports_ret_shape (env : Env)
    (recur : SourceInfo → String → List String → Option (Option ResolvedInfo × List String))
    (hrec : ∀ src2 ty st2 r2 st3, recur src2 ty st2 = some (some r2, st3) →
      r2.path = src2.path)
    (hWF : ∀ p, (env.sourceOf p).path = p)
    (srcPath type fromSpec : String) (entries : List (String × String))
    (st st2 : List String) (r : ResolvedInfo)
    (h : resolveTypeImports env recur srcPath type fromSpec entries st =
      some (.ret (some r) st2)) :
    (∃ kv ∈ entries, kv.1 = type ∨ kv.2 = type) ∧
    resolveImportPath env srcPath fromSpec = some r.resolvedPath := by
  induction entries generalizing st with
  | nil => simp [resolveTypeImports] at h
  | cons kv rest ih =>
    obtain ⟨k, v⟩ := kv
    have widen : (∃ kv ∈ rest, kv.1 = type ∨ kv.2 = type) ∧
        resolveImportPath env srcPath fromSpec = some r.resolvedPath →
        (∃ kv ∈ (k, v) :: rest, kv.1 = type ∨ kv.2 = type) ∧
        resolveImportPath env srcPath fromSpec = some r.resolvedPath := by
      rintro ⟨⟨kv2, hmem, hm⟩, hp⟩
      exact ⟨⟨kv2, List.mem_cons_of_mem _ hmem, hm⟩, hp⟩
    simp only [resolveTypeImports] at h
    split at h
    · rename_i hmatch
      split at h
      · exact widen (ih _ h)
      · rename_i rp hpath
        split at h
        · simp at h
        · split at h
          · simp at h
          · rename_i r2 st3 heq
            simp only [Option.some.injEq, ImportScan.ret.injEq] at h
            obtain ⟨h1, h2⟩ := h
            subst h1
            have hp2 : r2.path = rp := (hrec _ _ _ _ _ heq).trans (hWF rp)
            refine ⟨⟨(k, v), List.mem_cons_self _ _, hmatch⟩, ?_⟩
            show resolveImportPath env srcPath fromSpec = some r2.path
            rw [hp2]
            exact hpath
          · exact widen (ih _ h)
    · exact widen (ih _ h)

theorem resolveTypeCode_some_shape (env : Env)
    (recur : SourceInfo → String → List String → Option (Option ResolvedInfo × List String))
    (hrec : ∀ src2 ty st2 r2 st3, recur src2 ty st2 = some (some r2, st3) →
      r2.path = src2.path)
    (hWF : ∀ p, (env.sourceOf p).path = p)
    (srcPath type : String) (code : List Info) (st st' : List String) (r : ResolvedInfo)
    (h : resolveTypeCode env recur srcPath type code st = some (some r, st')) :
    (r.resolvedPath = srcPath ∧ ∃ i ∈ code, ∃ found, switchMatch i type = some found ∧
       r.resolvedInfo = some found) ∨
    (∃ fromSpec m, (Info.importInfo fromSpec m) ∈ code ∧
       (∃ kv ∈ m, kv.1 = type ∨ kv.2 = type) ∧
       resolveImportPath env srcPath fromSpec = some r.resolvedPath) := by
  induction code generalizing st with
  | nil => simp [resolveTypeCode] at h
  | cons i rest ih =>
    have widen : ∀ _i : Info,
        (r.resolvedPath = srcPath ∧ ∃ j ∈ rest, ∃ found, switchMatch j type = some found ∧
           r.resolvedInfo = some found) ∨
        (∃ fromSpec m, (Info.importInfo fromSpec m) ∈ rest ∧
           (∃ kv ∈ m, kv.1 = type ∨ kv.2 = type) ∧
           resolveImportPath env srcPath fromSpec = some r.resolvedPath) →
        (r.resolvedPath = srcPath ∧ ∃ j ∈ _i :: rest, ∃ found, switchMatch j type = some found ∧
           r.resolvedInfo = some found) ∨
        (∃ fromSpec m, (Info.importInfo fromSpec m) ∈ _i :: rest ∧
           (∃ kv ∈ m, kv.1 = type ∨ kv.2 = type) ∧
           resolveImportPath env srcPath fromSpec = some r.resolvedPath) := by
      rintro _i (⟨hp, j, hj, found, hfound⟩ | ⟨fromSpec, m, hm, hkv, hp⟩)
      · exact Or.inl ⟨hp, j, List.mem_cons_of_mem _ hj, found, hfound⟩
      · exact Or.inr ⟨fromSpec, m, List.mem_cons_of_mem _ hm, hkv, hp⟩
    have hsw : ∀ st0 : List String,
        (match switchMatch i type with
          | some found =>
              some (some ({ path := srcPath, resolvedInfo := some found,
                            resolvedPath := srcPath, type := type } : ResolvedInfo), st0)
          | none => resolveTypeCode env recur srcPath type rest st0) =
          some (some r, st') →
        (r.resolvedPath = srcPath ∧ ∃ j ∈ i :: rest, ∃ found,
           switchMatch j type = some found ∧ r.resolvedInfo = some found) ∨
        (∃ fromSpec m, (Info.importInfo fromSpec m) ∈ i :: rest ∧
           (∃ kv ∈ m, kv.1 = type ∨ kv.2 = type) ∧
           resolveImportPath env srcPath fromSpec = some r.resolvedPath) := by
      intro st0 h0
      split at h0
      · rename_i found hfound
        simp only [Option.some.injEq, Prod.mk.injEq] at h0
        obtain ⟨h1, h2⟩ := h0
        subst h1
        exact Or.inl ⟨rfl, i, List.mem_cons_self _ _, found, hfound, rfl⟩
      · exact widen i (ih st0 h0)
    cases i with
    | importInfo fromSpec m =>
      simp only [resolveTypeCode] at h
      split at h
      · simp at h
      · rename_i r0 st0 heq
        simp only [Option.some.injEq, Prod.mk.injEq] at h
        obtain ⟨h1, h2⟩ := h
        subst h1
        obtain ⟨hkv, hp⟩ := resolveTypeImports_ret_shape env recur hrec hWF
          srcPath type fromSpec m st st0 r heq
        exact Or.inr ⟨fromSpec, m, List.mem_cons_self _ _, hkv, hp⟩
      · rename_i st0 heq
        exact hsw st0 h
    | variableInfo n => simp only [resolveTypeCode] at h; exact hsw st h
    | propertyInfo n inh => simp only [resolveTypeCode] at h; exact hsw st h
    | functionInfo n inh => simp only [resolveTypeCode] at h; exact hsw st h
    | objectInfo => simp only [resolveTypeCode] at h; exact hsw st h
    | classInfo n e ps => simp only [resolveTypeCode] at h; exact hsw st h
    | interfaceInfo n e ps => simp only [resolveTypeCode] at h; exact hsw st h
    | exportInfo n o => simp only [resolveTypeCode] at h; exact hsw st h
    | docletInfo => simp only [resolveTypeCode] at h; exact hsw st h

/-- C3 (corrected): on every success of `resolveType`, `path` and `type`
reflect the outer query; when the match is a local record, `resolvedPath`
is the queried file itself and `resolvedInfo` the matched declaration from
its code list; when an import was followed, `resolvedPath` is the resolved
target path of a matching import record of the queried file — the file one
hop away (the recursive result's `path`), which holds the declaration only
when the chain has length one. -/
theorem c3_resolvedInfo_shape (env : Env)
    (hWF : ∀ p, (env.sourceOf p).path = p)
    (fuel : Nat) (src : SourceInfo) (type : String) (st st' : List String)
    (r : ResolvedInfo)
    (h : resolveType env fuel src type st = some (some r, st')) :
    r.path = src.path ∧ r.type = type ∧
    ((r.resolvedPath = src.path ∧ ∃ i ∈ src.code, ∃ found,
        switchMatch i type = some found ∧ r.resolvedInfo = some found) ∨
     (∃ fromSpec m, (Info.importInfo fromSpec m) ∈ src.code ∧
        (∃ kv ∈ m, kv.1 = type ∨ kv.2 = type) ∧
        resolveImportPath env src.path fromSpec = some r.resolvedPath)) := by
  obtain ⟨hp, ht⟩ := resolveType_some_path env fuel src type st st' r h
  refine ⟨hp, ht, ?_⟩
  cases fuel with
  | zero => simp [resolveType] at h
  | succ f =>
    exact resolveTypeCode_some_shape env (resolveType env f)
      (fun src2 ty st2 r2 st3 h2 => (resolveType_some_path env f src2 ty st2 st3 r2 h2).1)
      hWF src.path type src.code st st' r h

/-- Concrete three-file chain for C3: `/a.ts` imports `X` from `./b`,
`/b.ts` re-imports `X` from `./c`, and only `/c.ts` declares `X`. -/
def c3Code (p : String) : List Info :=
  if p = "/b.ts" then [.importInfo "./c" [("X", "X")]]
  else if p = "/c.ts" then [.variableInfo "X"]
  else []

def c3Env : Env where
  resolveFrom := fun _ f => if f == "./b" then "/b" else if f == "./c" then "/c" else "/none"
  extname := jsExtname
  existsSync := fun p => p == "/b.ts" || p == "/c.ts"
  sourceOf := fun p => ⟨p, c3Code p⟩
  kindEnumPos := fun _ => false

def c3SrcA : SourceInfo := ⟨"/a.ts", [.importInfo "./b" [("X", "X")]]⟩

/-- Counterexample to C3 as stated: resolving `X` from `/a.ts` succeeds, but
the returned `resolvedPath` is `/b.ts` — the first import hop — whose code
list holds no declaration named `X` and no export alias (its only record is
an import, with no `name` at all); the declaration actually found and
returned in `resolvedInfo` lives in `/c.ts`. -/
theorem c3_counterexample :
    resolveType c3Env 6 c3SrcA "X" [] =
      some (some ⟨"/a.ts", some (.variableInfo "X"), "/b.ts", "X"⟩, []) ∧
    (c3Env.sourceOf "/b.ts").code = [.importInfo "./c" [("X", "X")]] ∧
    (∀ i ∈ (c3Env.sourceOf "/b.ts").code, switchMatch i "X" = none ∧ i.nameOf = none) ∧
    (c3Env.sourceOf "/c.ts").code = [.variableInfo "X"] ∧
    ("/b.ts" : String) ≠ "/c.ts" := by
  refine ⟨rfl, rfl, ?_, rfl, by decide⟩
  intro i hi
  simp [c3Env, c3Code] at hi
  subst hi
  exact ⟨rfl, rfl⟩

/-- Witness for the corrected C3 on the three-file chain: the success is
characterized by the import branch, whose `resolvedPath` is the resolved
target of `/a.ts`'s matching import record. -/
theorem c3_resolvedInfo_shape_witness :
    (ResolvedInfo.mk "/a.ts" (some (.variableInfo "X")) "/b.ts" "X").path = c3SrcA.path ∧
    (ResolvedInfo.mk "/a.ts" (some (.variableInfo "X")) "/b.ts" "X").type = "X" ∧
    (((ResolvedInfo.mk "/a.ts" (some (.variableInfo "X")) "/b.ts" "X").resolvedPath =
        c3SrcA.path ∧
      ∃ i ∈ c3SrcA.code, ∃ found, switchMatch i "X" = some found ∧
        (ResolvedInfo.mk "/a.ts" (some (.variableInfo "X")) "/b.ts" "X").resolvedInfo =
          some found) ∨
     (∃ fromSpec m, (Info.importInfo fromSpec m) ∈ c3SrcA.code ∧
        (∃ kv ∈ m, kv.1 = "X" ∨ kv.2 = "X") ∧
        resolveImportPath c3Env c3SrcA.path fromSpec =
          some (ResolvedInfo.mk "/a.ts" (some (.variableInfo "X")) "/b.ts" "X").resolvedPath)) :=
  c3_resolvedInfo_shape c3Env (fun _ => rfl) 6 c3SrcA "X" [] []
    (ResolvedInfo.mk "/a.ts" (some (.variableInfo "X")) "/b.ts" "X") rfl

/-! ## `extractTypes` / `isNativeType` — tools/libs/ts.js lines 40-60, 377-410, 1382-1410 -/

/-- The `NATIVE_TYPES` constant, lines 46-54. -/
def NATIVE_TYPES : List String :=
  ["Array", "Function", "NaN", "Number", "Object", "String", "Symbol"]

/-- `isCapitalCase`, lines 1382-1388: the first character equals its
upper-case form; the empty string satisfies this (`''.charAt(0)` is `''`). -/
def isCapitalCase (text : String) : Bool :=
  match text.data with
  | [] => true
  | c :: _ => c.toUpper == c

/-- The `NATIVE_HELPER` regex test, lines 43-44: the string is one of the
listed helper names, or starts with one followed by `<`. -/
def nativeHelperTest (s : String) : Bool :=
  ["Array", "Extract", "Omit", "Partial", "Record", "Require"].any
    (fun w => s == w || List.isPrefixOf (w.data ++ ['<']) s.data)

/-- `isNativeType`, lines 1400-1410; `kindEnumPos` is the external
`TS.SyntaxKind[type] > 0` membership test. -/
def isNativeType (kindEnumPos : String → Bool) (type : String) : Bool :=
  decide (jsLength type < 2) || !isCapitalCase type || NATIVE_TYPES.contains type ||
    nativeHelperTest type || kindEnumPos type

/-- JS `\w` (ASCII word character). -/
def isWordChar (c : Char) : Bool :=
  c.isAlphanum || c == '_'

/-- `String.prototype.split` on the greedy separator `/[\W\.]+/` (the
`TYPE_SPLIT` constant, line 60): pieces between maximal runs of non-word
characters, with empty leading/trailing pieces as in JS.  The accumulator is
`none` while inside a separator run, `some acc` while inside a piece. -/
def splitNonWordGo : List Char → Option (List Char) → List (List Char)
  | [], none => [[]]
  | [], some acc => [acc.reverse]
  | c :: rest, none =>
    if isWordChar c then splitNonWordGo rest (some [c])
    else splitNonWordGo rest none
  | c :: rest, some acc =>
    if isWordChar c then splitNonWordGo rest (some (c :: acc))
    else acc.reverse :: splitNonWordGo rest none

/-- `extractTypes(typeString, includeNativeTypes)`, lines 377-400. -/
def extractTypes (kindEnumPos : String → Bool) (typeString : String)
    (includeNativeTypes : Bool) : List String :=
  (splitNonWordGo typeString.data (some [])).foldl (fun types part =>
    let p := String.mk part
    if !includeNativeTypes && isNativeType kindEnumPos p then types
    else if types.contains p then types
    else types ++ [p]) []

/-! ## `extractInfo` / `autoExtendInfo` — tools/libs/ts.js lines 114-174, 297-325 -/

/-- The kinds `extractInfo`'s switch considers, lines 305-310. -/
def extractInfoKinds : Info → Bool
  | .classInfo .. => true
  | .functionInfo .. => true
  | .interfaceInfo .. => true
  | .propertyInfo .. => true
  | .variableInfo .. => true
  | _ => false

/-- One record matches when its kind is considered and `info.name === name`
(a `none` query can never equal the matcher kinds' string names). -/
def extractMatch (i : Info) (name : Option String) : Bool :=
  extractInfoKinds i && decide (i.nameOf = name)

/-- `extractInfo(arr, name)`, lines 297-325: the matching records, or
`undefined` when there are none. -/
def extractInfo (arr : List Info) (name : Option String) : Option (List Info) :=
  let ex := arr.filter (fun i => extractMatch i name)
  if ex.isEmpty then none else some ex

/-- The `extends` field read by `autoExtendInfo` (line 121). -/
def Info.extendsOf : Info → Option (String ⊕ List String)
  | .classInfo _ e _ => e
  | .interfaceInfo _ e _ => e
  | _ => none

/-- The `properties` list read and extended in place (lines 159-170). -/
def Info.propertiesOf : Info → List Info
  | .classInfo _ _ ps => ps
  | .interfaceInfo _ _ ps => ps
  | _ => []

/-- Rebuild the record with its mutated `properties` list (the in-place
`infoToExtend.properties.push`). -/
def Info.withProperties : Info → List Info → Info
  | .classInfo n e _, ps => .classInfo n e ps
  | .interfaceInfo n e _, ps => .interfaceInfo n e ps
  | i, _ => i

/-- `property.inherited = true` (line 166) after the value-level copy
`newCodeInfo(property)` (line 165); the model tracks the flag on the named
member kinds that occur in `properties` lists. -/
def setInherited : Info → Info
  | .propertyInfo n _ => .propertyInfo n true
  | .functionInfo n _ => .functionInfo n true
  | i => i

/-- The `inherited` flag of a member record (`undefined` = `false`). -/
def Info.inheritedFlag : Info → Bool
  | .propertyInfo _ inh => inh
  | .functionInfo _ inh => inh
  | _ => false

/-- Lines 121-136: normalize `extends` to an array (a falsy `extends` skips
the block; `typeof 'string'` wraps in a singleton), then collect the
de-duplicated extracted type identifiers in discovery order. -/
def collectExtends (kindEnumPos : String → Bool)
    (ext : Option (String ⊕ List String)) : List String :=
  let extendsTypes : List String :=
    match ext with
    | none => []
    | some (.inl s) => if s = "" then [] else [s]
    | some (.inr l) => l
  extendsTypes.foldl (fun acc et =>
    (extractTypes kindEnumPos et false).foldl (fun acc2 t =>
      if acc2.contains t then acc2 else acc2 ++ [t]) acc) []

/-- The inner `for (let property of resolvedInfo.properties)` loop,
lines 159-170: append a copy flagged `inherited` unless `extractInfo`
already finds the name in the (growing) property list. -/
def autoExtendProps : List Info → List Info → List Info
  | [], props => props
  | p :: rest, props =>
    if (extractInfo props p.nameOf).isSome then autoExtendProps rest props
    else autoExtendProps rest (props ++ [setInherited p])

/-- The outer `for (const extendType of extendsToDo)` loop, lines 143-172,
threading the mutated property list: a failed resolution is the early
`return;` (line 147) keeping the mutations made so far; a resolved info of
any other kind is skipped (`continue`, lines 152-157). -/
def autoExtendLoop (env : Env) (fuel : Nat) (sourceInfo : SourceInfo) :
    List String → List Info → Option (List Info)
  | [], props => some props
  | t :: rest, props =>
    match resolveType env fuel sourceInfo t [] with
    | none => none
    | some (none, _) => some props
    | some (some r, _) =>
      match r.resolvedInfo with
      | some (.classInfo _ _ bprops) =>
          autoExtendLoop env fuel sourceInfo rest (autoExtendProps bprops props)
      | some (.interfaceInfo _ _ bprops) =>
          autoExtendLoop env fuel sourceInfo rest (autoExtendProps bprops props)
      | _ => autoExtendLoop env fuel sourceInfo rest props

/-- `autoExtendInfo(sourceInfo, infoToExtend)`, lines 114-174.  `returned`
is the JS return value — `undefined` from the early `return;` and from the
implicit fall-through alike — and `infoAfter` the post-state of the mutated
`infoToExtend` argument.  Outer `none` only signals exhausted fuel inside
`resolveType`. -/
structure AutoExtendResult where
  returned : Option Info
  infoAfter : Info

def autoExtendInfo (env : Env) (fuel : Nat) (sourceInfo : SourceInfo)
    (infoToExtend : Info) : Option AutoExtendResult :=
  let extendsToDo := collectExtends env.kindEnumPos infoToExtend.extendsOf
  match autoExtendLoop env fuel sourceInfo extendsToDo infoToExtend.propertiesOf with
  | none => none
  | some finalProps => some ⟨none, infoToExtend.withProperties finalProps⟩

/-! ## C5: local members win during inheritance flattening -/

theorem setInherited_idem (a : Info) : setInherited (setInherited a) = setInherited a := by
  cases a <;> rfl

theorem extractMatch_setInherited (a : Info) (nm : Option String) :
    extractMatch (setInherited a) nm = extractMatch a nm := by
  cases a <;> rfl

theorem isEmpty_eq_nil (l : List Info) : l.isEmpty = true ↔ l = [] := by
  cases l <;> simp

theorem extractInfo_isSome_iff (arr : List Info) (nm : Option String) :
    (extractInfo arr nm).isSome = true ↔
      arr.filter (fun i => extractMatch i nm) ≠ [] := by
  simp only [extractInfo]
  split
  · rename_i h
    have hnil : arr.filter (fun i => extractMatch i nm) = [] := by
      cases hl : arr.filter (fun i => extractMatch i nm) with
      | nil => rfl
      | cons a as => rw [hl] at h; simp [List.isEmpty] at h
    simp [hnil]
  · rename_i h
    simp only [Option.isSome_some, true_iff]
    intro hc
    exact h (by simp [hc])

/-- The matched-name bound preserved by the flattener: a name with a match
already in `props0` keeps exactly its `props0` matches; a name without one
gains at most a single inherited match. -/
def filterBound (props0 cur : List Info) : Prop :=
  ∀ n : String, (cur.filter (fun i => extractMatch i (some n))).length ≤
    max 1 (props0.filter (fun i => extractMatch i (some n))).length

theorem autoExtendProps_invariant (props0 : List Info) (baseProps : List Info)
    (added : List Info)
    (hmark : ∀ a ∈ added, setInherited a = a)
    (hbound : filterBound props0 (props0 ++ added)) :
    ∃ added2, autoExtendProps baseProps (props0 ++ added) = props0 ++ added2 ∧
      (∀ a ∈ added2, setInherited a = a) ∧
      filterBound props0 (props0 ++ added2) := by
  induction baseProps generalizing added with
  | nil => exact ⟨added, rfl, hmark, hbound⟩
  | cons p rest ih =>
    simp only [autoExtendProps]
    split
    · exact ih added hmark hbound
    · rename_i hnone
      rw [List.append_assoc]
      refine ih (added ++ [setInherited p]) ?_ ?_
      · intro a ha
        rcases List.mem_append.mp ha with ha | ha
        · exact hmark a ha
        · rw [List.mem_singleton.mp ha]
          exact setInherited_idem p
      · intro n
        rw [← List.append_assoc, List.filter_append (props0 ++ added) [setInherited p]]
        cases hm : extractMatch (setInherited p) (some n) with
        | false =>
          simp only [List.filter, hm, List.filter_nil, List.append_nil]
          exact hbound n
        | true =>
          have hmp : extractMatch p (some n) = true := by
            rw [← extractMatch_setInherited p (some n)]; exact hm
          have hname : p.nameOf = some n :=
            of_decide_eq_true ((Bool.and_eq_true _ _).mp hmp).2
          have hempty : (props0 ++ added).filter (fun i => extractMatch i (some n)) = [] := by
            by_contra hc
            exact hnone (by
              rw [← hname] at hc
              exact (extractInfo_isSome_iff (props0 ++ added) p.nameOf).mpr hc)
          rw [hempty]
          simp only [List.filter, hm, List.nil_append, List.length_cons, List.length_nil]
          exact Nat.le_max_left 1 _

theorem autoExtendLoop_invariant (env : Env) (fuel : Nat) (src : SourceInfo)
    (todo : List String) (props0 : List Info) (added : List Info) (res : List Info)
    (hmark : ∀ a ∈ added, setInherited a = a)
    (hbound : filterBound props0 (props0 ++ added))
    (h : autoExtendLoop env fuel src todo (props0 ++ added) = some res) :
    ∃ added2, res = props0 ++ added2 ∧ (∀ a ∈ added2, setInherited a = a) ∧
      filterBound props0 (props0 ++ added2) := by
  induction todo generalizing added with
  | nil =>
    simp only [autoExtendLoop, Option.some.injEq] at h
    exact ⟨added, h.symm, hmark, hbound⟩
  | cons t rest ih =>
    simp only [autoExtendLoop] at h
    split at h
    · exact absurd h (by simp)
    · simp only [Option.some.injEq] at h
      exact ⟨added, h.symm, hmark, hbound⟩
    · split at h
      · rename_i bprops heq
        obtain ⟨added1, heq1, hmark1, hbound1⟩ :=
          autoExtendProps_invariant props0 bprops added hmark hbound
        rw [heq1] at h
        exact ih added1 hmark1 hbound1 h
      · rename_i bprops heq
        obtain ⟨added1, heq1, hmark1, hbound1⟩ :=
          autoExtendProps_invariant props0 bprops added hmark hbound
        rw [heq1] at h
        exact ih added1 hmark1 hbound1 h
      · exact ih added hmark hbound h

/-- C5: when a class/interface info locally declares exactly one member
matching a name (with its `inherited` flag unset), `autoExtendInfo` leaves
exactly that record as the only match for the name in the resulting
property list — local members win; everything appended is flagged
`inherited`, and appended members never introduce a second match for any
name (first inherited occurrence wins over later ones). -/
theorem c5_local_declaration_wins (env : Env) (fuel : Nat) (src : SourceInfo)
    (info : Info) (res : AutoExtendResult) (nm : String) (p0 : Info)
    (h : autoExtendInfo env fuel src info = some res)
    (hlocal : info.propertiesOf.filter (fun i => extractMatch i (some nm)) = [p0])
    (hflag : p0.inheritedFlag = false) :
    ∃ added, res.infoAfter = info.withProperties (info.propertiesOf ++ added) ∧
      (info.propertiesOf ++ added).filter (fun i => extractMatch i (some nm)) = [p0] ∧
      p0.inheritedFlag = false ∧
      (∀ a ∈ added, setInherited a = a) ∧
      filterBound info.propertiesOf (info.propertiesOf ++ added) := by
  simp only [autoExtendInfo] at h
  split at h
  · exact absurd h (by simp)
  · rename_i finalProps heq
    simp only [Option.some.injEq] at h
    have hstart : info.propertiesOf ++ ([] : List Info) = info.propertiesOf :=
      List.append_nil _
    obtain ⟨added, hfin, hmark, hbound⟩ := autoExtendLoop_invariant env fuel src
      (collectExtends env.kindEnumPos info.extendsOf) info.propertiesOf [] finalProps
      (by intro a ha; cases ha)
      (by rw [hstart]; intro n; exact Nat.le_max_right 1 _)
      (by rw [hstart]; exact heq)
    refine ⟨added, ?_, ?_, hflag, hmark, hbound⟩
    · rw [← h, hfin]
    · have hsplit : (info.propertiesOf ++ added).filter (fun i => extractMatch i (some nm)) =
          [p0] ++ added.filter (fun i => extractMatch i (some nm)) := by
        rw [List.filter_append, hlocal]
      have hlen := hbound nm
      rw [hsplit] at hlen ⊢
      rw [hlocal] at hlen
      have : (added.filter (fun i => extractMatch i (some nm))).length = 0 := by
        simp only [List.length_append, List.length_cons, List.length_nil] at hlen
        omega
      rw [List.length_eq_zero.mp this]
      rfl

/-- Trivial collaborator instance for single-file flattening scenarios. -/
def extEnv : Env where
  resolveFrom := fun _ _ => "/none"
  extname := jsExtname
  existsSync := fun _ => false
  sourceOf := fun p => ⟨p, []⟩
  kindEnumPos := fun _ => false

/-- `interface Child extends Base { y: ... }`. -/
def extChild : Info :=
  .interfaceInfo "Child" (some (.inr ["Base"])) [.propertyInfo "y" false]

/-- One file declaring `Child` and `Base { x: ... }`. -/
def extSrc : SourceInfo :=
  ⟨"/i.ts", [extChild, .interfaceInfo "Base" none [.propertyInfo "x" false]]⟩

/-- C6 (code bug): on a file where every extends candidate of `Child`
resolves (second and third conjuncts: the only candidate is `Base`, and it
resolves to the local interface), `autoExtendInfo` does extend the property
list in place — but its return value is `undefined` (`returned = none`),
not the extended class/interface information its own doc comment
(`@return ... Extended class or interface information`) and the spec
promise.  No code path of lines 114-174 returns a value. -/
theorem c6_autoExtendInfo_returns_undefined :
    autoExtendInfo extEnv 5 extSrc extChild =
      some ⟨none, .interfaceInfo "Child" (some (.inr ["Base"]))
        [.propertyInfo "y" false, .propertyInfo "x" true]⟩ ∧
    collectExtends extEnv.kindEnumPos extChild.extendsOf = ["Base"] ∧
    resolveType extEnv 5 extSrc "Base" [] =
      some (some ⟨"/i.ts", some (.interfaceInfo "Base" none [.propertyInfo "x" false]),
        "/i.ts", "Base"⟩, []) :=
  ⟨rfl, rfl, rfl⟩

/-- `interface Child extends Base { foo }` with `Base { foo, x }`. -/
def extShadowChild : Info :=
  .interfaceInfo "Child" (some (.inr ["Base"])) [.propertyInfo "foo" false]

def extShadowSrc : SourceInfo :=
  ⟨"/i.ts", [extShadowChild,
    .interfaceInfo "Base" none [.propertyInfo "foo" false, .propertyInfo "x" false]]⟩

/-- Witness for C5: `Child` declares `foo` locally and extends `Base`,
which declares `foo` and `x`; the flattened list keeps exactly the local
`foo` (flag unset) and appends only `x`, flagged inherited. -/
theorem c5_local_declaration_wins_witness :
    autoExtendInfo extEnv 5 extShadowSrc extShadowChild =
      some ⟨none, .interfaceInfo "Child" (some (.inr ["Base"]))
        [.propertyInfo "foo" false, .propertyInfo "x" true]⟩ ∧
    extShadowChild.propertiesOf.filter (fun i => extractMatch i (some "foo")) =
      [.propertyInfo "foo" false] ∧
    (Info.propertyInfo "foo" false).inheritedFlag = false ∧
    (∃ added,
      (AutoExtendResult.mk none (.interfaceInfo "Child" (some (.inr ["Base"]))
        [.propertyInfo "foo" false, .propertyInfo "x" true])).infoAfter =
        extShadowChild.withProperties (extShadowChild.propertiesOf ++ added) ∧
      (extShadowChild.propertiesOf ++ added).filter (fun i => extractMatch i (some "foo")) =
        [.propertyInfo "foo" false] ∧
      (Info.propertyInfo "foo" false).inheritedFlag = false ∧
      (∀ a ∈ added, setInherited a = a) ∧
      filterBound extShadowChild.propertiesOf (extShadowChild.propertiesOf ++ added)) :=
  ⟨rfl, rfl, rfl,
    c5_local_declaration_wins extEnv 5 extShadowSrc extShadowChild
      (AutoExtendResult.mk none (.interfaceInfo "Child" (some (.inr ["Base"]))
        [.propertyInfo "foo" false, .propertyInfo "x" true]))
      "foo" (.propertyInfo "foo" false) rfl rfl rfl⟩

/-! ## C7: `sanitizeText` and `getImportInfo` — tools/libs/ts.js lines 57, 886-936, 1703-1707 -/

/-- The three quote characters of the `SANITIZE_TEXT` regex (single quote
and backtick written by code point). -/
def isQuoteChar (c : Char) : Bool :=
  c == Char.ofNat 39 || c == '"' || c == Char.ofNat 96

/-- `sanitizeText(text)`, lines 1703-1707: the regex
`^(['"`]?)(.*)\1$` strips one pair of identical surrounding quote
characters when the string has length at least two and starts and ends
with the same quote; otherwise the optional group matches empty and the
text is unchanged. -/
def sanitizeText (text : String) : String :=
  let l := text.data
  if 2 ≤ l.length ∧ l.head? = l.getLast? ∧ (l.head?.map isQuoteChar).getD false = true then
    String.mk ((l.drop 1).dropLast)
  else text

/-- One import specifier of a named-imports clause, at the parser interface
boundary: `propertyName` (the original exported name when renaming) and
`name` (the local binding). -/
structure ImportSpecifierNode where
  propertyName : Option String
  name : String

/-- The logical children of `node.importClause` that lines 908-924
discriminate: a bare identifier (default import) or a named-imports list;
anything else is skipped by both `if`s. -/
inductive ImportClauseChild where
  | ident (name : String)
  | namedImports (specs : List ImportSpecifierNode)
  | otherChild

/-- An import declaration at the parser interface boundary;
`moduleSpecifierText` is `node.moduleSpecifier.getText()`, which includes
the source quotes. -/
structure ImportDeclNode where
  moduleSpecifierText : String
  importClause : Option (List ImportClauseChild)

/-- JS object assignment on the insertion-ordered `imports` record. -/
def objSet (m : List (String × String)) (k v : String) : List (String × String) :=
  if (m.find? (fun kv => kv.1 == k)).isSome then
    m.map (fun kv => if kv.1 == k then (k, v) else kv)
  else m ++ [(k, v)]

/-- `propertyName = child.propertyName && child.propertyName.text ||
child.name.text` (lines 915-919): the original exported name, falling back
to the local name (also on an empty text, by JS truthiness). -/
def importKey (sp : ImportSpecifierNode) : String :=
  match sp.propertyName with
  | some p => if p = "" then sp.name else p
  | none => sp.name

/-- `getImportInfo(node)`, lines 886-936: `from` is the quote-stripped
module specifier; the default import is stored under the key `"default"`,
and every import specifier under its original name, mapped to the local
name (`_imports[propertyName] = child.name.text`, line 920).  An absent
`importClause` leaves the JS `imports` field `undefined`, which the
consumer `for...in` loop treats as the empty record, modelled `[]`. -/
def getImportInfo (node : ImportDeclNode) : Info :=
  let fromSpec := sanitizeText node.moduleSpecifierText
  let imports : List (String × String) :=
    match node.importClause with
    | none => []
    | some children =>
      children.foldl (fun m child =>
        match child with
        | .ident n => objSet m "default" n
        | .namedImports specs =>
            specs.foldl (fun m2 sp => objSet m2 (importKey sp) sp.name) m
        | .otherChild => m) []
  .importInfo fromSpec imports

/-- The claim's concrete node: `import { Foo as Bar } from './other.js'`
(the module specifier's source text keeps its single quotes). -/
def c7Node : ImportDeclNode :=
  { moduleSpecifierText := String.mk (Char.ofNat 39 :: ("./other.js".data ++ [Char.ofNat 39]))
    importClause := some [.namedImports [⟨some "Foo", "Bar"⟩]] }

/-- Counterexample to C7 as stated: the classified `from` is
`./other.js` — `sanitizeText` strips only the quotes, never the `.js`
suffix (that happens later, inside `resolveType`'s path normalization) —
so it is not `./other`. -/
theorem c7_counterexample :
    getImportInfo c7Node = .importInfo "./other.js" [("Foo", "Bar")] ∧
    ("./other.js" : String) ≠ "./other" :=
  ⟨rfl, by decide⟩

def c7Code (p : String) : List Info :=
  if p = "/other.ts" then [.variableInfo "Foo"] else []

def c7Env : Env where
  resolveFrom := fun _ f => if f == "./other.js" then "/other.js" else "/none"
  extname := jsExtname
  existsSync := fun p => p == "/other.ts"
  sourceOf := fun p => ⟨p, c7Code p⟩
  kindEnumPos := fun _ => false

/-- C7 (corrected): the import declaration classifies to an ImportInfo with
`from = './other.js'` (quote-stripped only) and `imports = {Foo: 'Bar'}`
(original name to local name), and resolving `Bar` in the importing file
follows the import — stripping the `.js` suffix and probing `.ts` — and
locates `Foo`'s declaration in `./other`. -/
theorem c7_import_rename_resolution :
    getImportInfo c7Node = .importInfo "./other.js" [("Foo", "Bar")] ∧
    resolveType c7Env 5 ⟨"/main.ts", [getImportInfo c7Node]⟩ "Bar" [] =
      some (some ⟨"/main.ts", some (.variableInfo "Foo"), "/other.ts", "Bar"⟩, []) :=
  ⟨rfl, rfl⟩

/-! ## C8: doclet tag extraction — tools/libs/ts.js lines 85-98, 635-695

`getDocletInfosBetween` reads each re-parsed doclet block through the
parser collaborator (spec section 4.2/6): per JSDoc node it takes
`node.comment` (a string or a list of comment parts) for the reserved
`description` tag, and for each explicit tag the tag's raw source text
`tag.getText()` together with `tag.tagName.text`.  Those two parser outputs
are the interface model here; the string post-processing applied to them is
the repository's own code, embedded below. -/

/-- `addTag(doclet, tag, text)`, lines 85-98, on the insertion-ordered tag
map: make sure the key exists, then push the text when it is truthy
(non-empty). -/
def addTag (tags : List (String × List String)) (tag : String) (text : String) :
    List (String × List String) :=
  let tags1 := if (tags.find? (fun kv => kv.1 == tag)).isSome then tags
               else tags ++ [(tag, [])]
  if text ≠ "" then
    tags1.map (fun kv => if kv.1 == tag then (kv.1, kv.2 ++ [text]) else kv)
  else tags1

/-- Split at every newline (each `\n` starts a match of the gutter regex
`/\n *\*?/gu`, line 677). -/
def splitLinesGo : List Char → List Char → List (List Char)
  | [], acc => [acc.reverse]
  | c :: rest, acc =>
    if c == '\n' then acc.reverse :: splitLinesGo rest []
    else splitLinesGo rest (c :: acc)

/-- The rest of one gutter-regex match: greedy spaces, then one optional
asterisk, consumed from the start of the piece following the newline. -/
def stripGutterStart (l : List Char) : List Char :=
  match l.dropWhile (fun c => c == ' ') with
  | '*' :: r => r
  | l2 => l2

/-- Lines 673-679: `tag.getText().trim().substring(tagName.length + 1)
.trim().split(/\n *\*?/gu).join('\n').trim()` — the tag-name prefix is
stripped by character count, comment-gutter formatting undone, and the
result trimmed. -/
def processTagText (tagName rawText : String) : String :=
  let s1 := trimChars rawText.data
  let s2 := s1.drop (tagName.data.length + 1)
  let s3 := trimChars s2
  let pieces :=
    match splitLinesGo s3 [] with
    | [] => []
    | p :: rest => p :: rest.map stripGutterStart
  String.mk (trimChars (List.intercalate ['\n'] pieces))

/-- One JSDoc comment value at the parser interface: a plain string or an
array of comment parts (their `.text` fields). -/
inductive JSDocCommentVal where
  | str (s : String)
  | parts (texts : List String)

/-- One explicit tag at the parser interface: `tag.tagName.text` and the
raw source text `tag.getText()`. -/
structure JSDocTagNode where
  tagName : String
  rawText : String

/-- One JSDoc node of a re-parsed doclet block. -/
structure JSDocNode where
  comment : Option JSDocCommentVal
  tags : Option (List JSDocTagNode)

/-- Lines 652-688 for one JSDoc node: add the description (when the comment
is truthy — an empty string is not, an array is), then every explicit tag
with its processed text. -/
def docletNodeTags (acc : List (String × List String)) (node : JSDocNode) :
    List (String × List String) :=
  let acc1 :=
    match node.comment with
    | some (.str s) => if s = "" then acc else addTag acc "description" (jsTrim s)
    | some (.parts ts) =>
        addTag acc "description"
          (String.mk (trimChars (List.intercalate ['\n'] (ts.map String.data))))
    | none => acc
  match node.tags with
  | none => acc1
  | some tagList =>
      tagList.foldl (fun a tag => addTag a tag.tagName (processTagText tag.tagName tag.rawText))
        acc1

/-- The tag map built for one doclet block (the `for (const node of
doclet)` loop of lines 652-688 over the block's JSDoc nodes). -/
def getDocletTags (nodes : List JSDocNode) : List (String × List String) :=
  nodes.foldl docletNodeTags []

/-- The claim's concrete block
`/** Does a thing.\n * @param {number} a - value\n * @return {number} result */`
at the parser interface: the leading text is the comment, and each tag's
raw text runs from its `@` through the end of its own text. -/
def c8Block : JSDocNode :=
  { comment := some (.str "Does a thing.")
    tags := some [⟨"param", "@param {number} a - value"⟩,
                  ⟨"return", "@return {number} result"⟩] }

/-- Counterexample to C8 as stated: stripping the tag-name prefix from
`@return {number} result` leaves `{number} result` — the braced type is
part of the stored text, exactly as it is for `@param` — so the parsed
`return` entry is `["{number} result"]`, not `["result"]`, and the claimed
tag map is not produced. -/
theorem c8_counterexample :
    (getDocletTags [c8Block]).find? (fun kv => kv.1 == "return") =
      some ("return", ["{number} result"]) ∧
    getDocletTags [c8Block] ≠
      [("description", ["Does a thing."]), ("param", ["{number} a - value"]),
       ("return", ["result"])] := by
  refine ⟨rfl, ?_⟩
  intro hc
  have h1 : (getDocletTags [c8Block]).find? (fun kv => kv.1 == "return") =
      some ("return", ["{number} result"]) := rfl
  rw [hc] at h1
  simp at h1

/-- C8 (corrected): the block parses to exactly
`{description: ["Does a thing."], param: ["{number} a - value"],
return: ["{number} result"]}` — for every tag, the tag text after the
tag-name prefix is stripped, gutters undone and the result trimmed. -/
theorem c8_doclet_block_tags :
    getDocletTags [c8Block] =
      [("description", ["Does a thing."]), ("param", ["{number} a - value"]),
       ("return", ["{number} result"])] :=
  rfl

/-! ## C9: `newCodeInfo` and doclet tag aliasing — tools/libs/ts.js lines 1463-1488

Aliasing is about object identity, so this claim is settled over an
explicit heap: objects live at addresses, fields hold primitives or
references, allocation appends, and mutation is `Heap.set`.  `newCodeInfo`
copies a field deeply only when its value is an `Array` or an object with a
truthy `kind`; every other field — in particular a `DocletInfo.tags` record,
which has no `kind` — is copied as the bare reference (line 1483). -/

abbrev Addr := Nat

inductive HVal where
  | prim (s : String)
  | undef
  | ref (a : Addr)
deriving DecidableEq

inductive HObj where
  | arr (elems : List HVal)
  | obj (fields : List (String × HVal))
deriving DecidableEq

structure Heap where
  objs : List HObj
deriving DecidableEq

def Heap.get (h : Heap) (a : Addr) : Option HObj :=
  h.objs[a]?

def Heap.alloc (h : Heap) (o : HObj) : Heap × Addr :=
  (⟨h.objs ++ [o]⟩, h.objs.length)

def Heap.set (h : Heap) (a : Addr) (o : HObj) : Heap :=
  ⟨h.objs.set a o⟩

/-- JS truthiness of the values stored here (no `null` occurs in the
engine's info records). -/
def hvTruthy : HVal → Bool
  | .prim s => !(s == "")
  | .undef => false
  | .ref _ => true

/-- `Object.keys(template)` with the value per key: an array enumerates its
index keys. -/
def objFieldsOf : HObj → List (String × HVal)
  | .obj fs => fs
  | .arr es => es.enum.map (fun p => (toString p.1, p.2))

def lookupField (fs : List (String × HVal)) (k : String) : Option HVal :=
  (fs.find? (fun kv => kv.1 == k)).map (fun kv => kv.2)

/-- `template[key] && typeof template[key] === 'object' && template[key].kind`
(lines 1476-1480) for an object value already known not to be an array. -/
def hasTruthyKind (fs : List (String × HVal)) : Bool :=
  match lookupField fs "kind" with
  | some v => hvTruthy v
  | none => false

/-- The array branch, line 1471: `template[key].map(item => item && typeof
item === 'object' ? newCodeInfo(item) : item)` — every object item is
copied recursively, primitives are kept. -/
def newCodeInfoElems (recur : Heap → Addr → Option (Heap × Addr)) :
    Heap → List HVal → Option (Heap × List HVal)
  | h, [] => some (h, [])
  | h, v :: rest =>
    match v with
    | .ref a =>
      match recur h a with
      | none => none
      | some (h1, a1) =>
        match newCodeInfoElems recur h1 rest with
        | none => none
        | some (h2, vs) => some (h2, .ref a1 :: vs)
    | other =>
      match newCodeInfoElems recur h rest with
      | none => none
      | some (h2, vs) => some (h2, other :: vs)

/-- One field copy, lines 1470-1484: a reference to an array gets a new
array of item copies; a reference to an object with truthy `kind` is
copied recursively; anything else — primitives, `undefined`, and references
to `kind`-less objects such as a tags record — is copied as-is. -/
def newCodeInfoField (recur : Heap → Addr → Option (Heap × Addr)) (h : Heap) (v : HVal) :
    Option (Heap × HVal) :=
  match v with
  | .ref a =>
    match h.get a with
    | some (.arr elems) =>
      match newCodeInfoElems recur h elems with
      | none => none
      | some (h1, es) =>
        let al := h1.alloc (.arr es)
        some (al.1, .ref al.2)
    | some (.obj ofs) =>
      if hasTruthyKind ofs then
        match recur h a with
        | none => none
        | some (h1, a1) => some (h1, .ref a1)
      else some (h, v)
    | none => some (h, v)
  | _ => some (h, v)

/-- The `for (const key of Object.keys(template))` loop of lines 1469-1485,
building the new object's fields in key order. -/
def newCodeInfoFields (recur : Heap → Addr → Option (Heap × Addr)) :
    Heap → List (String × HVal) → Option (Heap × List (String × HVal))
  | h, [] => some (h, [])
  | h, (k, v) :: rest =>
    match newCodeInfoField recur h v with
    | none => none
    | some (h1, v1) =>
      match newCodeInfoFields recur h1 rest with
      | none => none
      | some (h2, fs) => some (h2, (k, v1) :: fs)

/-- `newCodeInfo(template)`, lines 1463-1488, fuel-indexed: copy every
field per `newCodeInfoField` into a freshly allocated plain object. -/
def newCodeInfo : Nat → Heap → Addr → Option (Heap × Addr)
  | 0, _, _ => none
  | fuel + 1, h, a =>
    match h.get a with
    | none => none
    | some o =>
      match newCodeInfoFields (newCodeInfo fuel) h (objFieldsOf o) with
      | none => none
      | some (h1, fs) =>
        let al := h1.alloc (.obj fs)
        some (al.1, al.2)

/-- JS object assignment for heap field lists. -/
def objSetHV (fs : List (String × HVal)) (k : String) (v : HVal) :
    List (String × HVal) :=
  if (fs.find? (fun kv => kv.1 == k)).isSome then
    fs.map (fun kv => if kv.1 == k then (k, v) else kv)
  else fs ++ [(k, v)]

/-- `addTag(doclet, tag, text)`, lines 85-98, as the heap mutation it is in
JS: `tags[tag] = tags[tag] || []` publishes a fresh array into the tags
record when the key is missing (a stored non-reference is treated as
absent; the engine only ever stores arrays), then a truthy text is pushed
onto the array in place. -/
def addTagHeap (h : Heap) (docletAddr : Addr) (tag text : String) : Option Heap :=
  match h.get docletAddr with
  | some (.obj dfs) =>
    match lookupField dfs "tags" with
    | some (.ref tagsAddr) =>
      match h.get tagsAddr with
      | some (.obj tfs) =>
        let step : Heap × Addr :=
          match lookupField tfs tag with
          | some (.ref arrAddr) => (h, arrAddr)
          | _ =>
            let al := h.alloc (.arr [])
            (al.1.set tagsAddr (.obj (objSetHV tfs tag (.ref al.2))), al.2)
        if text ≠ "" then
          match step.1.get step.2 with
          | some (.arr es) => some (step.1.set step.2 (.arr (es ++ [.prim text])))
          | _ => none
        else some step.1
      | _ => none
    | _ => none
  | _ => none

/-- Read an info record's doclet tag map address (`info.doclet.tags`). -/
def docletTagsAddr (h : Heap) (infoAddr : Addr) : Option Addr :=
  match h.get infoAddr with
  | some (.obj fs) =>
    match lookupField fs "doclet" with
    | some (.ref d) =>
      match h.get d with
      | some (.obj dfs) =>
        match lookupField dfs "tags" with
        | some (.ref t) => some t
        | _ => none
      | _ => none
    | _ => none
  | _ => none

def readStrArr (h : Heap) (v : HVal) : List String :=
  match v with
  | .ref a =>
    match h.get a with
    | some (.arr es) => es.filterMap (fun e =>
        match e with
        | .prim s => some s
        | _ => none)
    | _ => []
  | _ => []

/-- Read an info record's doclet tag map as values (`info.doclet.tags`,
each entry's array of strings). -/
def readDocletTags (h : Heap) (infoAddr : Addr) : Option (List (String × List String)) :=
  match docletTagsAddr h infoAddr with
  | some t =>
    match h.get t with
    | some (.obj tfs) => some (tfs.map (fun kv => (kv.1, readStrArr h kv.2)))
    | _ => none
  | none => none

/-- A property record `{kind: 'Property', name: 'foo', doclet: {kind:
'Doclet', tags: {a: ['x']}}}` laid out on the heap. -/
def c9Heap : Heap :=
  ⟨[.arr [.prim "x"],
    .obj [("a", .ref 0)],
    .obj [("kind", .prim "Doclet"), ("tags", .ref 1)],
    .obj [("kind", .prim "Property"), ("name", .prim "foo"), ("doclet", .ref 2)]]⟩

/-- `c9Heap` after `newCodeInfo` copied the record at address 3: the copy
(address 5) got a fresh doclet object (address 4), but that doclet's
`tags` field still references address 1 — the original's tags record. -/
def c9HeapAfterCopy : Heap :=
  ⟨[.arr [.prim "x"],
    .obj [("a", .ref 0)],
    .obj [("kind", .prim "Doclet"), ("tags", .ref 1)],
    .obj [("kind", .prim "Property"), ("name", .prim "foo"), ("doclet", .ref 2)],
    .obj [("kind", .prim "Doclet"), ("tags", .ref 1)],
    .obj [("kind", .prim "Property"), ("name", .prim "foo"), ("doclet", .ref 4)]]⟩

/-- `c9HeapAfterCopy` after `addTag(copy.doclet, 'b', 'y')`: the shared
tags record at address 1 gained the entry. -/
def c9HeapMutated : Heap :=
  ⟨[.arr [.prim "x"],
    .obj [("a", .ref 0), ("b", .ref 6)],
    .obj [("kind", .prim "Doclet"), ("tags", .ref 1)],
    .obj [("kind", .prim "Property"), ("name", .prim "foo"), ("doclet", .ref 2)],
    .obj [("kind", .prim "Doclet"), ("tags", .ref 1)],
    .obj [("kind", .prim "Property"), ("name", .prim "foo"), ("doclet", .ref 4)],
    .arr [.prim "y"]]⟩

/-- Counterexample to C9 as stated: `newCodeInfo` copies a property record
carrying a doclet, both records' tag maps end up at the same address 1, and
adding a tag through the copy's doclet (`addTag(copyDoclet, 'b', 'y')`)
changes the original record's doclet tags from `{a: ['x']}` to
`{a: ['x'], b: ['y']}` — the copy is not deep for tags, and the two
records' doclet tag maps are aliased. -/
theorem c9_counterexample :
    newCodeInfo 5 c9Heap 3 = some (c9HeapAfterCopy, 5) ∧
    docletTagsAddr c9HeapAfterCopy 5 = some 1 ∧
    docletTagsAddr c9HeapAfterCopy 3 = some 1 ∧
    addTagHeap c9HeapAfterCopy 4 "b" "y" = some c9HeapMutated ∧
    readDocletTags c9Heap 3 = some [("a", ["x"])] ∧
    readDocletTags c9HeapMutated 3 = some [("a", ["x"]), ("b", ["y"])] ∧
    readDocletTags c9HeapMutated 5 = some [("a", ["x"]), ("b", ["y"])] :=
  ⟨rfl, rfl, rfl, rfl, rfl, rfl, rfl⟩

theorem get_lt_length (h : Heap) (a : Addr) (o : HObj) (ha : h.get a = some o) :
    a < h.objs.length := by
  by_contra hge
  have h2 : h.objs[a]? = none := List.getElem?_eq_none (Nat.le_of_not_lt hge)
  have ha2 : h.objs[a]? = some o := ha
  rw [h2] at ha2
  cases ha2

theorem get_append_left (l l2 : List HObj) (a : Addr) (o : HObj)
    (ha : l[a]? = some o) : (l ++ l2)[a]? = some o := by
  have hlt : a < l.length := by
    by_contra hge
    rw [List.getElem?_eq_none (Nat.le_of_not_lt hge)] at ha
    cases ha
  rw [List.getElem?_append_left hlt]
  exact ha

theorem get_append_two (l : List HObj) (x y : HObj) :
    (l ++ [x, y])[l.length]? = some x ∧ (l ++ [x, y])[l.length + 1]? = some y := by
  constructor
  · rw [List.getElem?_append_right (Nat.le_refl _)]
    simp
  · rw [List.getElem?_append_right (by omega)]
    have he : l.length + 1 - l.length = 1 := by omega
    rw [he]
    rfl

/-- C9 (corrected): for any property-shaped record whose doclet carries a
`kind`-less tags record at address `t`, `newCodeInfo` deep-copies the
record and its doclet (fresh objects appended to the heap), but the copy's
doclet `tags` field holds the same reference `t` as the original; the two
records' doclet tag maps are aliased, so mutating the copy's tags mutates
the original's (deep tag copies exist only in `newDocletInfo`, which
slices every tag array). -/
theorem c9_newCodeInfo_aliases_tags (fuel : Nat) (h : Heap) (a d t : Addr)
    (ks ns dk : String) (tfs : List (String × HVal))
    (hobj : h.get a = some (.obj [("kind", .prim ks), ("name", .prim ns),
      ("doclet", .ref d)]))
    (hd : h.get d = some (.obj [("kind", .prim dk), ("tags", .ref t)]))
    (hdk : dk ≠ "")
    (ht : h.get t = some (.obj tfs))
    (htk : hasTruthyKind tfs = false) :
    newCodeInfo (fuel + 2) h a =
      some (⟨h.objs ++ [.obj [("kind", .prim dk), ("tags", .ref t)],
                        .obj [("kind", .prim ks), ("name", .prim ns),
                              ("doclet", .ref h.objs.length)]]⟩,
            h.objs.length + 1) ∧
    docletTagsAddr
      ⟨h.objs ++ [.obj [("kind", .prim dk), ("tags", .ref t)],
                  .obj [("kind", .prim ks), ("name", .prim ns),
                        ("doclet", .ref h.objs.length)]]⟩
      (h.objs.length + 1) = some t ∧
    docletTagsAddr
      ⟨h.objs ++ [.obj [("kind", .prim dk), ("tags", .ref t)],
                  .obj [("kind", .prim ks), ("name", .prim ns),
                        ("doclet", .ref h.objs.length)]]⟩
      a = some t := by
  have hdocletCopy : newCodeInfo (fuel + 1) h d =
      some (⟨h.objs ++ [.obj [("kind", .prim dk), ("tags", .ref t)]]⟩, h.objs.length) := by
    simp only [newCodeInfo, hd, objFieldsOf, newCodeInfoFields, newCodeInfoField, ht, htk,
      Heap.alloc, Bool.false_eq_true, if_false]
  have hkindtrue : hasTruthyKind [("kind", HVal.prim dk), ("tags", HVal.ref t)] = true := by
    simp only [hasTruthyKind, lookupField, List.find?, hvTruthy]
    simp [hdk]
  have houterFields : newCodeInfoFields (newCodeInfo (fuel + 1)) h
      [("kind", HVal.prim ks), ("name", HVal.prim ns), ("doclet", HVal.ref d)] =
      some (⟨h.objs ++ [.obj [("kind", .prim dk), ("tags", .ref t)]]⟩,
            [("kind", HVal.prim ks), ("name", HVal.prim ns),
             ("doclet", HVal.ref h.objs.length)]) := by
    simp only [newCodeInfoFields, newCodeInfoField, hd, hkindtrue, if_true, hdocletCopy]
  have hcopy : newCodeInfo (fuel + 2) h a =
      some (⟨h.objs ++ [.obj [("kind", .prim dk), ("tags", .ref t)],
                        .obj [("kind", .prim ks), ("name", .prim ns),
                              ("doclet", .ref h.objs.length)]]⟩,
            h.objs.length + 1) := by
    rw [show fuel + 2 = (fuel + 1) + 1 from rfl]
    rw [newCodeInfo]
    rw [hobj]
    simp only [objFieldsOf]
    rw [houterFields]
    simp only [Heap.alloc]
    simp [List.append_assoc]
  have hobj2 : h.objs[a]? = some (HObj.obj [("kind", HVal.prim ks),
      ("name", HVal.prim ns), ("doclet", HVal.ref d)]) := hobj
  have hd2 : h.objs[d]? = some (HObj.obj [("kind", HVal.prim dk),
      ("tags", HVal.ref t)]) := hd
  refine ⟨hcopy, ?_, ?_⟩
  · simp [docletTagsAddr, Heap.get,
      (get_append_two h.objs (HObj.obj [("kind", HVal.prim dk), ("tags", HVal.ref t)])
        (HObj.obj [("kind", HVal.prim ks), ("name", HVal.prim ns),
          ("doclet", HVal.ref h.objs.length)])).1,
      (get_append_two h.objs (HObj.obj [("kind", HVal.prim dk), ("tags", HVal.ref t)])
        (HObj.obj [("kind", HVal.prim ks), ("name", HVal.prim ns),
          ("doclet", HVal.ref h.objs.length)])).2,
      lookupField]
  · simp [docletTagsAddr, Heap.get, get_append_left _ _ a _ hobj2,
      get_append_left _ _ d _ hd2, lookupField]

/-- Witness for the corrected C9 at the concrete heap of the
counterexample. -/
theorem c9_newCodeInfo_aliases_tags_witness :
    newCodeInfo (3 + 2) c9Heap 3 =
      some (⟨c9Heap.objs ++ [.obj [("kind", .prim "Doclet"), ("tags", .ref 1)],
                             .obj [("kind", .prim "Property"), ("name", .prim "foo"),
                                   ("doclet", .ref c9Heap.objs.length)]]⟩,
            c9Heap.objs.length + 1) ∧
    docletTagsAddr
      ⟨c9Heap.objs ++ [.obj [("kind", .prim "Doclet"), ("tags", .ref 1)],
                       .obj [("kind", .prim "Property"), ("name", .prim "foo"),
                             ("doclet", .ref c9Heap.objs.length)]]⟩
      (c9Heap.objs.length + 1) = some 1 ∧
    docletTagsAddr
      ⟨c9Heap.objs ++ [.obj [("kind", .prim "Doclet"), ("tags", .ref 1)],
                       .obj [("kind", .prim "Property"), ("name", .prim "foo"),
                             ("doclet", .ref c9Heap.objs.length)]]⟩
      3 = some 1 :=
  c9_newCodeInfo_aliases_tags 3 c9Heap 3 2 1 "Property" "foo" "Doclet" [("a", .ref 0)]
    rfl rfl (by decide) rfl rfl

/-- C4: `changeSourceCode` applies its batch of `(start, end, replacement)`
edits sorted by descending start offset, right to left, so every offset is
interpreted against the original text; an empty or absent edit list returns
the input unchanged; in particular
`changeSourceCode("abcdef", [[1,3,"X"],[4,5,"Y"]]) = "aXdYf"`. -/
theorem c4_changeSourceCode_applies_edits :
    changeSourceCode "abcdef" (some [(1, 3, "X"), (4, 5, "Y")]) = "aXdYf" ∧
    (∀ s : String, changeSourceCode s none = s) ∧
    (∀ s : String, changeSourceCode s (some []) = s) ∧
    (∀ s : String, ∀ rs : List Replacement,
      changeSourceCode s (some rs) = (sortReplacements rs).foldl applyReplacement s) := by
  refine ⟨by decide, fun s => rfl, fun s => rfl, fun s rs => ?_⟩
  cases rs with
  | nil => rfl
  | cons r rs => rfl

/-- C10: for every non-empty replacements list, `changeSourceCode` sorts the
caller-supplied array in place by descending start offset before applying the
edits, so after the call the argument array itself is permuted into
descending-start order rather than left in its original order. -/
theorem c10_changeSourceCode_sorts_in_place (rs : List Replacement) (h : rs ≠ []) :
    (changeSourceCodeArray rs).Perm rs ∧
    (changeSourceCodeArray rs).Pairwise descStart := by
  have hne : rs.isEmpty = false := by
    cases rs with
    | nil => exact absurd rfl h
    | cons r rs => rfl
  rw [changeSourceCodeArray, hne]
  exact ⟨sortReplacements_perm rs, sortReplacements_pairwise rs⟩

/-- Witness for C10 at the spec's concrete edit list `[[1,3,"X"],[4,5,"Y"]]`. -/
theorem c10_changeSourceCode_sorts_in_place_witness :
    ([(1, 3, "X"), (4, 5, "Y")] : List Replacement) ≠ [] ∧
    ((changeSourceCodeArray [(1, 3, "X"), (4, 5, "Y")]).Perm [(1, 3, "X"), (4, 5, "Y")] ∧
     (changeSourceCodeArray [(1, 3, "X"), (4, 5, "Y")]).Pairwise descStart) :=
  ⟨by decide, c10_changeSourceCode_sorts_in_place [(1, 3, "X"), (4, 5, "Y")] (by decide)⟩

end TsLib
